import Mathlib

/-!
# Merged cancellation contexts (`contexts.Merge`)

A shallow embedding of `merge.go`: the `mergeContext` type, its four
methods (`Value`, `Done`, `Err`, `Deadline`), `idempotentlyClose`, `Merge`
and the watcher goroutine that `Merge` spawns.

The two source contexts are external collaborators. A `Context` value is a
snapshot of what the four methods of a `context.Context` answer at one
moment; the sources changing over time is a change of snapshot.

Three step systems are built on the embedding: the runs of a merged context
(`step`, `run`), in which each call is one step; and, for callers that overlap
in time, the statements of `idempotentlyClose` (`cancelStep`, `cancelRace`)
and of `Err` (`errStep`, `errRace`) taken one at a time under any schedule.
-/

namespace Contexts

/-! ## Collaborator types -/

/-- An `error` value that is not nil; a nil `error` is `none`. -/
abbrev Error := String

/-- Keys handed to `Value`. -/
abbrev Key := Nat

/-- An `interface{}` value that is not nil; a nil one is `none`. -/
abbrev Val := String

/-- A `time.Time`: the instant it denotes (in nanoseconds) and its location.
The location does not take part in comparisons of instants. -/
structure Time where
  nsec : Int
  loc : Nat
  deriving DecidableEq, Repr

/-- Method `t.Before(u)`: the instant of `t` is strictly before the instant of `u`. -/
def Time.Before (t u : Time) : Bool := decide (t.nsec < u.nsec)

/-- A channel of type `chan struct{}` on which nothing is ever sent: its only
state is whether it has been closed. A receive is ready exactly when it is. -/
structure Chan where
  closed : Bool
  deriving DecidableEq, Repr

/-- Builtin `make(chan struct{})`: a fresh open channel. -/
def make : Chan := ⟨false⟩

/-- Builtin `close(ch)`: closing a closed channel panics. -/
def close (ch : Chan) : Except String Chan :=
  if ch.closed then .error "close of closed channel" else .ok ⟨true⟩

/-- What a `context.Context` answers at one moment: whether the channel of
`Done()` is closed, and the results of `Err()`, `Deadline()` and `Value(key)`. -/
structure Context where
  Done : Bool
  Err : Option Error
  Deadline : Time × Bool
  Value : Key → Option Val

/-! ## `mergeContext` -/

/-- The struct `mergeContext`. The embedded mutex only serialises `Err`. -/
structure mergeContext where
  child : Context
  parent : Context
  ch : Chan
  err : Option Error

/-- Function `idempotentlyClose`: the receive case is ready when `ch` is closed and does
nothing; otherwise the default case closes `ch`. -/
def idempotentlyClose (ch : Chan) : Except String Chan :=
  if ch.closed then .ok ch else close ch

/-- Method `(*mergeContext).Value`. -/
def mergeContext.Value (ctx : mergeContext) (key : Key) : Option Val :=
  match ctx.child.Value key with
  | some v => some v
  | none => ctx.parent.Value key

/-- Method `(*mergeContext).Done`: the channel `ctx.ch`. -/
def mergeContext.Done (ctx : mergeContext) : Chan := ctx.ch

/-- Method `(*mergeContext).Err`: the returned error and the context after the call.
The lock makes the whole body one atomic step. -/
def mergeContext.Err (ctx : mergeContext) : Option Error × mergeContext :=
  let ctx1 : mergeContext :=
    if ctx.err = none then
      match ctx.child.Err with
      | some err => { ctx with err := some err }
      | none => { ctx with err := ctx.parent.Err }
    else ctx
  (ctx1.err, ctx1)

/-- Method `(*mergeContext).Deadline`. The `ok` of each `if` statement shadows the
one outside it, so the `return d1, ok` after the inner `if` yields the
child's `ok`. -/
def mergeContext.Deadline (ctx : mergeContext) : Time × Bool :=
  let (d1, ok) := ctx.child.Deadline
  if ok then
    let (d2, ok2) := ctx.parent.Deadline
    if ok2 then
      if d1.Before d2 then (d1, ok2) else (d2, ok2)
    else (d1, ok)
  else ctx.parent.Deadline

/-! ## `Merge` -/

/-- Modelled from the spec: the plain derived-cancel context of a parent, which
is what `context.WithCancel` of the Go standard library returns (its code is
not part of this repository). It embeds the parent, whose `Deadline` and
`Value` it answers with, and holds the error set when it is cancelled. -/
structure cancelCtx where
  parent : Context
  err : Option Error

/-- Modelled from the spec: `context.WithCancel(parent)`, not yet cancelled. -/
def WithCancel (parent : Context) : cancelCtx := ⟨parent, none⟩

/-- Modelled from the spec: `Value` of a derived-cancel context is the parent's. -/
def cancelCtx.Value (c : cancelCtx) (key : Key) : Option Val := c.parent.Value key

/-- Modelled from the spec: `Deadline` of a derived-cancel context is the
parent's. -/
def cancelCtx.Deadline (c : cancelCtx) : Time × Bool := c.parent.Deadline

/-- Modelled from the spec: `Err` of a derived-cancel context: the error set
when it was cancelled, and otherwise the parent's once the parent is done. -/
def cancelCtx.Err (c : cancelCtx) : Option Error :=
  match c.err with
  | some e => some e
  | none => if c.parent.Done then c.parent.Err else none

/-- Modelled from the spec: the native cancel function of a derived-cancel
context; cancelling a context that is not done yet records
`context.Canceled`, and cancelling a done one changes nothing. -/
def cancelCtx.cancel (c : cancelCtx) : cancelCtx :=
  match c.Err with
  | none => { c with err := some "context canceled" }
  | some _ => c

/-- What a call of `Merge` with a non-nil child sets up: the returned
`mergeContext`, the channel `cancelCh` shared by the returned cancel function
and the watcher goroutine, and whether that goroutine has yet to finish. -/
structure Running where
  ctx : mergeContext
  cancelCh : Chan
  watching : Bool

/-- The two shapes of what `Merge` returns: the result of `context.WithCancel`,
or a `mergeContext` with its cancel function and watcher. -/
inductive Returned where
  | withCancel (c : cancelCtx)
  | merge (r : Running)

/-- Function `Merge`. A nil context is `none`; a panic is an `Except.error`. -/
def Merge (ctx child : Option Context) : Except String Returned :=
  match ctx with
  | none => .error "ctx must not be nil"
  | some ctx =>
    match child with
    | none => .ok (.withCancel (WithCancel ctx))
    | some child =>
      let ch := make
      let cancelCh := make
      .ok (.merge ⟨{ child := child, parent := ctx, ch := ch, err := none }, cancelCh, true⟩)

/-- The goroutine spawned by `Merge`, scheduled once: while none of the three
receives of its `select` is ready it stays blocked; otherwise it closes `ch`
and ends. -/
def watcher (r : Running) : Except String Running :=
  if r.watching then
    if r.ctx.child.Done || r.ctx.parent.Done || r.cancelCh.closed then
      match close r.ctx.ch with
      | .ok ch => .ok { r with ctx := { r.ctx with ch := ch }, watching := false }
      | .error msg => .error msg
    else .ok r
  else .ok r

/-- The cancel function returned by `Merge` for a non-nil child:
`func() { idempotentlyClose(cancelCh) }`. -/
def cancel (r : Running) : Except String Running :=
  match idempotentlyClose r.cancelCh with
  | .ok c => .ok { r with cancelCh := c }
  | .error msg => .error msg

/-! ## Runs

What can happen to a merged context after `Merge` has returned. The sources
are one-shot: a source that is not done may become done with a cause, and a
done source stays as it is. -/

/-- A source context becomes done with cause `e`, unless it is done already. -/
def Context.finish (c : Context) (e : Error) : Context :=
  if c.Done then c else { c with Done := true, Err := some e }

/-- One atomic thing that happens to a merged context. -/
inductive Event where
  | childDone (e : Error)
  | parentDone (e : Error)
  | cancel
  | watcher
  | callErr
  deriving DecidableEq, Repr

/-- The effect of one event. -/
def step (r : Running) : Event → Except String Running
  | .childDone e => .ok { r with ctx := { r.ctx with child := r.ctx.child.finish e } }
  | .parentDone e => .ok { r with ctx := { r.ctx with parent := r.ctx.parent.finish e } }
  | .cancel => cancel r
  | .watcher => watcher r
  | .callErr => .ok { r with ctx := r.ctx.Err.2 }

/-- The effect of a sequence of events, stopping at the first panic. -/
def run (r : Running) : List Event → Except String Running
  | [] => .ok r
  | e :: es =>
    match step r e with
    | .ok r1 => run r1 es
    | .error msg => .error msg

/-- Function `context.Background()`: never done, no deadline, no values. -/
def Background : Context :=
  { Done := false, Err := none, Deadline := (⟨0, 0⟩, false), Value := fun _ => none }

/-- A context like `c` with deadline `d`. -/
def Context.withDeadline (c : Context) (d : Time) : Context :=
  { c with Deadline := (d, true) }

/-- A context like `c` in which `key` is bound to `v`. -/
def Context.withValue (c : Context) (key : Key) (v : Val) : Context :=
  { c with Value := fun k => if k = key then some v else c.Value k }

/-- The merged context seen at a later moment, when its sources answer as the
snapshots `c` and `p`. -/
def mergeContext.setSources (ctx : mergeContext) (c p : Context) : mergeContext :=
  { ctx with child := c, parent := p }

/-- The results of successive calls of `Err()`, the sources answering as the
given pair of snapshots (child, parent) at each call. -/
def ErrCalls (ctx : mergeContext) : List (Context × Context) → List (Option Error)
  | [] => []
  | (c, p) :: rest =>
    (ctx.setSources c p).Err.1 :: ErrCalls (ctx.setSources c p).Err.2 rest

/-- A cached error came from a source: if the cache is set, the child or the
parent reports an error. -/
def cacheFromSources (r : Running) : Prop :=
  r.ctx.err ≠ none → (r.ctx.child.Err ≠ none ∨ r.ctx.parent.Err ≠ none)

/-- The merged context after successive calls of `Err()`, the sources
answering as the given pair of snapshots (child, parent) at each call. -/
def afterErrCalls (ctx : mergeContext) : List (Context × Context) → mergeContext
  | [] => ctx
  | (c, p) :: rest => afterErrCalls (ctx.setSources c p).Err.2 rest

/-- The watcher, scheduled in state `r`, gets past its `select` and executes
`close(ch)`. -/
def reachesClose (r : Running) : Bool :=
  r.watching && (r.ctx.child.Done || r.ctx.parent.Done || r.cancelCh.closed)

/-- How many times `close(ch)` is executed along a run. -/
def closeCount (r : Running) : List Event → Nat
  | [] => 0
  | e :: es =>
    (if e = Event.watcher ∧ reachesClose r = true then 1 else 0) +
      match step r e with
      | .ok r1 => closeCount r1 es
      | .error _ => 0

/-- The watcher is still running exactly while `ch` is open: `ch` is closed
by the watcher and by nothing else. -/
def watcherOwnsSignal (r : Running) : Prop :=
  r.watching = !r.ctx.ch.closed

/-- The channel of `Done()` is closed only if the child is done, the parent
is done, or `cancelCh` is closed. -/
def signalHasCause (r : Running) : Prop :=
  r.ctx.ch.closed = true →
    (r.ctx.child.Done = true ∨ r.ctx.parent.Done = true ∨ r.cancelCh.closed = true)

/-- What a result of `Deadline()` reports: the instant of the timestamp when
the flag is true, and no deadline when it is false. -/
def reported (d : Time × Bool) : Option Int :=
  if d.2 then some d.1.nsec else none

/-- The earliest of the instants among reported deadlines, and none when none
is reported. -/
def earliest : List (Option Int) → Option Int
  | [] => none
  | none :: rest => earliest rest
  | some t :: rest =>
    match earliest rest with
    | none => some t
    | some u => some (min t u)

/-- A `mergeContext` used as a `context.Context`: what its four methods
answer at this moment. -/
def mergeContext.asContext (ctx : mergeContext) : Context :=
  { Done := ctx.Done.closed, Err := ctx.Err.1, Deadline := ctx.Deadline, Value := ctx.Value }

/-- Modelled from the spec: a derived-cancel context used as a
`context.Context`; it is done once it has been cancelled or its parent is
done. -/
def cancelCtx.asContext (c : cancelCtx) : Context :=
  { Done := c.err.isSome || c.parent.Done, Err := c.Err, Deadline := c.Deadline,
    Value := c.Value }

/-- The context returned by `Merge`, used as a `context.Context`. -/
def Returned.asContext : Returned → Context
  | .withCancel c => c.asContext
  | .merge r => r.ctx.asContext

/-! ## Concurrent callers

Goroutines are interleaved at the grain of the statements they execute: each
step below is one statement of one caller, and a schedule is the list of the
callers that take the successive steps. -/

/-- Where one invocation of the returned cancel function stands inside
`idempotentlyClose`: before the `select`, after the `select` chose its default
case with `close(ch)` still to come, or returned. -/
inductive ClosePc where
  | start
  | closing
  | returned
  deriving DecidableEq, Repr

/-- Invocations of the returned cancel function in flight: the channel
`cancelCh` they share and where each caller stands. -/
structure CancelRace where
  cancelCh : Chan
  pcs : Nat → ClosePc

/-- No caller has started yet. -/
def CancelRace.start (ch : Chan) : CancelRace := ⟨ch, fun _ => .start⟩

/-- Caller `i` executes its next statement of `idempotentlyClose`: the
`select`, which returns if the receive is ready and chooses the default case
otherwise, or the `close(ch)` of the default case. -/
def cancelStep (s : CancelRace) (i : Nat) : Except String CancelRace :=
  match s.pcs i with
  | .start =>
    if s.cancelCh.closed then .ok { s with pcs := Function.update s.pcs i .returned }
    else .ok { s with pcs := Function.update s.pcs i .closing }
  | .closing =>
    match close s.cancelCh with
    | .ok ch => .ok { cancelCh := ch, pcs := Function.update s.pcs i .returned }
    | .error msg => .error msg
  | .returned => .ok s

/-- The callers of a schedule take their steps in turn, up to the first
panic. -/
def cancelRace (s : CancelRace) : List Nat → Except String CancelRace
  | [] => .ok s
  | i :: rest =>
    match cancelStep s i with
    | .ok s1 => cancelRace s1 rest
    | .error msg => .error msg

/-- Where one call of `Err()` stands: before `ctx.Lock()`, holding the lock
before the test `ctx.err == nil`, holding it inside the body of that `if`,
holding it before `return ctx.err`, or returned with a value. -/
inductive ErrPc where
  | start
  | check
  | resolve
  | ret
  | returned (v : Option Error)
  deriving DecidableEq, Repr

/-- The caller is between `ctx.Lock()` and the deferred `ctx.Unlock()`. -/
def ErrPc.holdsLock : ErrPc → Bool
  | .check => true
  | .resolve => true
  | .ret => true
  | _ => false

/-- Calls of `Err()` in flight on one `mergeContext`: the context, whether
its mutex is locked, where each caller stands, and the callers that have
executed the body of `if ctx.err == nil`, the latest first. -/
structure ErrRace where
  ctx : mergeContext
  locked : Bool
  pcs : Nat → ErrPc
  resolvers : List Nat

/-- How many times the body of `if ctx.err == nil` has been executed. -/
def ErrRace.resolutions (s : ErrRace) : Nat := s.resolvers.length

/-- The caller has left the test `ctx.err == nil` and its body behind: it is
about to return or has returned. -/
def ErrPc.pastBody : ErrPc → Bool
  | .ret => true
  | .returned _ => true
  | _ => false

/-- No caller has started yet and the mutex is free. -/
def ErrRace.start (ctx : mergeContext) : ErrRace := ⟨ctx, false, fun _ => .start, []⟩

/-- Caller `i` executes its next statement of `Err()`. A caller at
`ctx.Lock()` while the mutex is held stays where it is. -/
def errStep (s : ErrRace) (i : Nat) : ErrRace :=
  match s.pcs i with
  | .start =>
    if s.locked then s
    else { s with locked := true, pcs := Function.update s.pcs i .check }
  | .check =>
    if s.ctx.err = none then { s with pcs := Function.update s.pcs i .resolve }
    else { s with pcs := Function.update s.pcs i .ret }
  | .resolve =>
    { s with
      ctx :=
        match s.ctx.child.Err with
        | some err => { s.ctx with err := some err }
        | none => { s.ctx with err := s.ctx.parent.Err }
      pcs := Function.update s.pcs i .ret
      resolvers := i :: s.resolvers }
  | .ret => { s with locked := false, pcs := Function.update s.pcs i (.returned s.ctx.err) }
  | .returned _ => s

/-- The callers of a schedule take their steps in turn. -/
def errRace (s : ErrRace) : List Nat → ErrRace
  | [] => s
  | i :: rest => errRace (errStep s i) rest

/-- What holds of every state of a race of `Err()` callers all of whom return
`v`: the cache is unset or holds `v`, and while it is unset the sources
resolve to `v`; a caller inside the body of the `if` sees the cache unset; a
caller about to return, or returned, has `v`; at most one caller holds the
lock, none when the mutex is free and one when it is locked. -/
structure ErrRaceInv (v : Option Error) (s : ErrRace) : Prop where
  resolvesTo : s.ctx.err = none → (s.ctx.child.Err <|> s.ctx.parent.Err) = v
  cache : s.ctx.err = none ∨ s.ctx.err = v
  atResolve : ∀ i, s.pcs i = .resolve → s.ctx.err = none
  atRet : ∀ i, s.pcs i = .ret → s.ctx.err = v
  returned : ∀ i w, s.pcs i = .returned w → w = v ∧ s.ctx.err = v
  excl : ∀ i j, (s.pcs i).holdsLock = true → (s.pcs j).holdsLock = true → i = j
  free : s.locked = false → ∀ i, (s.pcs i).holdsLock = false
  held : s.locked = true → ∃ i, (s.pcs i).holdsLock = true

/-- What holds of the executions of the body of `if ctx.err == nil` in every
state of a race that started with cache `c0` and whose callers return `v`:
the callers that executed it are past it, each once; with the cache set at
the start the cache is kept and nobody executes it; with the cache unset and
`v` an error it has been executed once if the cache is set and not at all if
it is not; with the cache unset and `v` nil every caller past the test has
executed it. -/
structure ErrCountInv (c0 v : Option Error) (s : ErrRace) : Prop where
  passed : ∀ i ∈ s.resolvers, (s.pcs i).pastBody = true
  nodup : s.resolvers.Nodup
  kept : c0 ≠ none → s.ctx.err = c0
  cached : c0 ≠ none → s.resolvers = []
  once : c0 = none → v ≠ none → s.resolvers.length = if s.ctx.err = none then 0 else 1
  each : c0 = none → v = none → ∀ i, (s.pcs i).pastBody = true → i ∈ s.resolvers

/-- One hour, in nanoseconds. -/
def hour : Int := 3600000000000

/-! ## Deadline -/

/-- C1: when child and parent both report a deadline, `Deadline()` reports a
deadline (`true`), the timestamp is the child's if it is strictly before the
parent's and the parent's otherwise, and so its instant is the earlier of the
two instants whichever side holds it. -/
theorem deadline_both_earlier (ctx : mergeContext) (d1 d2 : Time)
    (hc : ctx.child.Deadline = (d1, true)) (hp : ctx.parent.Deadline = (d2, true)) :
    ctx.Deadline = (if d1.Before d2 then d1 else d2, true) ∧
    ctx.Deadline.2 = true ∧
    ctx.Deadline.1.nsec = min d1.nsec d2.nsec ∧
    (ctx.Deadline.1 = d1 ∨ ctx.Deadline.1 = d2) := by
  have h : ctx.Deadline = (if d1.Before d2 then d1 else d2, true) := by
    simp only [mergeContext.Deadline, hc, hp]
    cases d1.Before d2 <;> simp
  rw [h]
  refine ⟨rfl, rfl, ?_, ?_⟩
  · by_cases hlt : d1.nsec < d2.nsec
    · simp [Time.Before, hlt, min_eq_left hlt.le]
    · simp [Time.Before, hlt, min_eq_right (not_lt.mp hlt)]
  · cases d1.Before d2 <;> simp

/-- The test of C1 at T = 0: parent at T+1h with child at T+2h, and parent at
T+2h with child at T+1h, both give T+1h. -/
theorem deadline_both_earlier_witness :
    (mergeContext.mk (Background.withDeadline ⟨2 * hour, 0⟩)
        (Background.withDeadline ⟨1 * hour, 0⟩) make none).Deadline
        = (⟨1 * hour, 0⟩, true) ∧
    (mergeContext.mk (Background.withDeadline ⟨1 * hour, 0⟩)
        (Background.withDeadline ⟨2 * hour, 0⟩) make none).Deadline
        = (⟨1 * hour, 0⟩, true) :=
  ⟨(deadline_both_earlier
      (mergeContext.mk (Background.withDeadline ⟨2 * hour, 0⟩)
        (Background.withDeadline ⟨1 * hour, 0⟩) make none)
      ⟨2 * hour, 0⟩ ⟨1 * hour, 0⟩ rfl rfl).1.trans (by decide),
   (deadline_both_earlier
      (mergeContext.mk (Background.withDeadline ⟨1 * hour, 0⟩)
        (Background.withDeadline ⟨2 * hour, 0⟩) make none)
      ⟨1 * hour, 0⟩ ⟨2 * hour, 0⟩ rfl rfl).1.trans (by decide)⟩

/-- C2: when only the child reports a deadline `Deadline()` returns the
child's timestamp with `true`, when only the parent reports one it returns the
parent's with `true`, when neither does it reports absent (`false`); so the
flag is true exactly when at least one source reports a deadline. -/
theorem deadline_one_or_none (ctx : mergeContext) :
    (ctx.child.Deadline.2 = true → ctx.parent.Deadline.2 = false →
      ctx.Deadline = (ctx.child.Deadline.1, true)) ∧
    (ctx.child.Deadline.2 = false → ctx.parent.Deadline.2 = true →
      ctx.Deadline = (ctx.parent.Deadline.1, true)) ∧
    (ctx.child.Deadline.2 = false → ctx.parent.Deadline.2 = false →
      ctx.Deadline.2 = false) ∧
    (ctx.Deadline.2 = true ↔
      (ctx.child.Deadline.2 = true ∨ ctx.parent.Deadline.2 = true)) := by
  obtain ⟨c, p, ch, err⟩ := ctx
  obtain ⟨cd, ce, ⟨d1, ok1⟩, cv⟩ := c
  obtain ⟨pd, pe, ⟨d2, ok2⟩, pv⟩ := p
  cases ok1 <;> cases ok2 <;> simp [mergeContext.Deadline]
  cases d1.Before d2 <;> simp

/-- C2 on three contexts: a deadline only in the child, only in the parent,
and in neither. -/
theorem deadline_one_or_none_witness :
    (mergeContext.mk (Background.withDeadline ⟨hour, 1⟩) Background make none).Deadline
      = (⟨hour, 1⟩, true) ∧
    (mergeContext.mk Background (Background.withDeadline ⟨hour, 2⟩) make none).Deadline
      = (⟨hour, 2⟩, true) ∧
    (mergeContext.mk Background Background make none).Deadline.2 = false :=
  ⟨(deadline_one_or_none
      (mergeContext.mk (Background.withDeadline ⟨hour, 1⟩) Background make none)).1 rfl rfl,
   (deadline_one_or_none
      (mergeContext.mk Background (Background.withDeadline ⟨hour, 2⟩) make none)).2.1 rfl rfl,
   (deadline_one_or_none
      (mergeContext.mk Background Background make none)).2.2.1 rfl rfl⟩

/-! ## Value -/

/-- C3: `Value(key)` is the child's value when that is not nil and the parent's
otherwise; so a key bound in both yields the child's value, a key bound only
in the parent yields the parent's, and a key bound in neither yields nil. -/
theorem value_child_then_parent (ctx : mergeContext) (key : Key) :
    ctx.Value key = (ctx.child.Value key <|> ctx.parent.Value key) ∧
    (∀ v, ctx.child.Value key = some v → ctx.Value key = some v) ∧
    (ctx.child.Value key = none → ctx.Value key = ctx.parent.Value key) ∧
    (∀ vc vp, ctx.child.Value key = some vc → ctx.parent.Value key = some vp →
      ctx.Value key = some vc) ∧
    (∀ vp, ctx.child.Value key = none → ctx.parent.Value key = some vp →
      ctx.Value key = some vp) ∧
    (ctx.child.Value key = none → ctx.parent.Value key = none →
      ctx.Value key = none) := by
  unfold mergeContext.Value
  cases hc : ctx.child.Value key <;> simp
  intro vc _ h _
  exact h

/-- C3 on key 7: bound to different values in child and parent, bound in the
parent only, and bound in neither. -/
theorem value_child_then_parent_witness :
    (mergeContext.mk (Background.withValue 7 "child") (Background.withValue 7 "parent")
      make none).Value 7 = some "child" ∧
    (mergeContext.mk Background (Background.withValue 7 "parent") make none).Value 7
      = some "parent" ∧
    (mergeContext.mk Background Background make none).Value 7 = none :=
  ⟨(value_child_then_parent
      (mergeContext.mk (Background.withValue 7 "child") (Background.withValue 7 "parent")
        make none) 7).2.2.2.1 "child" "parent" rfl rfl,
   (value_child_then_parent
      (mergeContext.mk Background (Background.withValue 7 "parent") make none)
        7).2.2.2.2.1 "parent" rfl rfl,
   (value_child_then_parent
      (mergeContext.mk Background Background make none) 7).2.2.2.2.2 rfl rfl⟩

/-! ## Err -/

/-- With an error in the cache, `Err()` returns it and changes nothing. -/
theorem Err_of_cached (ctx : mergeContext) (e : Error) (h : ctx.err = some e) :
    ctx.Err = (some e, ctx) := by
  simp [mergeContext.Err, h]

/-- With an empty cache, `Err()` resolves from the sources and stores the
result. -/
theorem Err_of_unset (ctx : mergeContext) (h : ctx.err = none) :
    ctx.Err = (ctx.child.Err <|> ctx.parent.Err,
      { ctx with err := (ctx.child.Err <|> ctx.parent.Err) }) := by
  cases hc : ctx.child.Err <;> simp [mergeContext.Err, h, hc]

/-- The error `Err()` returns is the one in the cache after the call. -/
theorem Err_snd_err (ctx : mergeContext) : ctx.Err.2.err = ctx.Err.1 := by
  simp [mergeContext.Err]

/-- C4: with the cache unset, `Err()` returns the child's error if that is not
nil and the parent's otherwise, and stores what it returns in the cache,
leaving the rest of the context as it was. So a parent done with cause P and
a live child give P, a child done with cause C and a live parent give C, and
both done give the child's cause. -/
theorem err_first_resolution (ctx : mergeContext) (h : ctx.err = none) :
    ctx.Err.1 = (ctx.child.Err <|> ctx.parent.Err) ∧
    ctx.Err.2.err = ctx.Err.1 ∧
    ctx.Err.2 = { ctx with err := ctx.Err.1 } ∧
    (∀ P, ctx.child.Err = none → ctx.parent.Err = some P → ctx.Err.1 = some P) ∧
    (∀ C, ctx.child.Err = some C → ctx.parent.Err = none → ctx.Err.1 = some C) ∧
    (∀ C P, ctx.child.Err = some C → ctx.parent.Err = some P → ctx.Err.1 = some C) := by
  rw [Err_of_unset ctx h]
  refine ⟨rfl, rfl, rfl, ?_, ?_, ?_⟩
  · intro P hc hp
    simp [hc, hp]
  · intro C hc _
    simp [hc]
  · intro C P hc _
    simp [hc]

/-- C4 on the two scenarios of the spec and on both sources done: the states
are those reached from `Merge` once the source is done and the watcher ran. -/
theorem err_first_resolution_witness :
    (∃ r0 r, Merge (some Background) (some Background) = .ok (.merge r0) ∧
      run r0 [.parentDone "parent-cancelled", .watcher] = .ok r ∧
      r.ctx.Done.closed = true ∧ r.ctx.err = none ∧
      r.ctx.Err.1 = some "parent-cancelled" ∧ r.ctx.Err.2.err = some "parent-cancelled") ∧
    (∃ r0 r, Merge (some Background) (some Background) = .ok (.merge r0) ∧
      run r0 [.childDone "child-cancelled", .watcher] = .ok r ∧
      r.ctx.Done.closed = true ∧ r.ctx.err = none ∧
      r.ctx.Err.1 = some "child-cancelled") ∧
    (∃ r0 r, Merge (some Background) (some Background) = .ok (.merge r0) ∧
      run r0 [.parentDone "parent-cancelled", .childDone "child-cancelled", .watcher]
        = .ok r ∧
      r.ctx.Done.closed = true ∧ r.ctx.err = none ∧
      r.ctx.Err.1 = some "child-cancelled") :=
  ⟨⟨_, _, rfl, rfl, rfl, rfl,
      (err_first_resolution _ rfl).2.2.2.1 "parent-cancelled" rfl rfl,
      ((err_first_resolution _ rfl).2.1).trans
        ((err_first_resolution _ rfl).2.2.2.1 "parent-cancelled" rfl rfl)⟩,
   ⟨_, _, rfl, rfl, rfl, rfl,
      (err_first_resolution _ rfl).2.2.2.2.1 "child-cancelled" rfl rfl⟩,
   ⟨_, _, rfl, rfl, rfl, rfl,
      (err_first_resolution _ rfl).2.2.2.2.2 "child-cancelled" "parent-cancelled" rfl rfl⟩⟩

/-- Once the cache holds `e`, every later call returns `e`, whatever the
sources answer. -/
theorem ErrCalls_of_cached (e : Error) (later : List (Context × Context)) :
    ∀ ctx : mergeContext, ctx.err = some e →
      ErrCalls ctx later = List.replicate later.length (some e) := by
  induction later with
  | nil => intro ctx _; rfl
  | cons cp rest ih =>
    intro ctx h
    obtain ⟨c, p⟩ := cp
    have hs : (ctx.setSources c p).err = some e := h
    simp only [ErrCalls, Err_of_cached _ e hs, List.length_cons, List.replicate_succ]
    rw [ih _ hs]

/-- C5: once a call of `Err()` has returned an error `e`, every later call
returns `e` again, whatever the child and the parent report at the time of
those later calls. -/
theorem err_memoized (ctx : mergeContext) (e : Error) (h : ctx.Err.1 = some e)
    (later : List (Context × Context)) :
    ErrCalls ctx.Err.2 later = List.replicate later.length (some e) ∧
    ∀ c p, (ctx.Err.2.setSources c p).Err.1 = some e := by
  have hc : ctx.Err.2.err = some e := (Err_snd_err ctx).trans h
  refine ⟨ErrCalls_of_cached e later _ hc, ?_⟩
  intro c p
  have hs : (ctx.Err.2.setSources c p).err = some e := hc
  rw [Err_of_cached _ e hs]

/-- C5 on the example of the claim: the parent's cause is cached, then the
child becomes done with another cause, then both sources are replaced by live
ones; the two later calls still return the parent's cause. -/
theorem err_memoized_witness :
    (mergeContext.mk Background (Background.finish "parent-cancelled") ⟨true⟩ none).Err.1
      = some "parent-cancelled" ∧
    ErrCalls (mergeContext.mk Background (Background.finish "parent-cancelled") ⟨true⟩ none).Err.2
      [(Background.finish "child-cancelled", Background.finish "parent-cancelled"),
       (Background, Background)]
      = [some "parent-cancelled", some "parent-cancelled"] :=
  ⟨rfl,
   (err_memoized (mergeContext.mk Background (Background.finish "parent-cancelled") ⟨true⟩ none)
      "parent-cancelled" rfl
      [(Background.finish "child-cancelled", Background.finish "parent-cancelled"),
       (Background, Background)]).1⟩

/-! ## Reachable states -/

/-- A source that reports an error keeps reporting one when it becomes done. -/
theorem finish_Err_ne_none (c : Context) (e : Error) (h : c.Err ≠ none) :
    (c.finish e).Err ≠ none := by
  unfold Context.finish
  split
  · exact h
  · simp

/-- Every event keeps `cacheFromSources`. -/
theorem step_cacheFromSources (r r1 : Running) (ev : Event) (h : cacheFromSources r)
    (hs : step r ev = .ok r1) : cacheFromSources r1 := by
  cases ev with
  | childDone e =>
    simp only [step, Except.ok.injEq] at hs
    subst hs
    intro hne
    rcases h hne with hc | hp
    · exact Or.inl (finish_Err_ne_none _ e hc)
    · exact Or.inr hp
  | parentDone e =>
    simp only [step, Except.ok.injEq] at hs
    subst hs
    intro hne
    rcases h hne with hc | hp
    · exact Or.inl hc
    · exact Or.inr (finish_Err_ne_none _ e hp)
  | cancel =>
    simp only [step, cancel] at hs
    split at hs
    · simp only [Except.ok.injEq] at hs
      subst hs
      exact h
    · exact absurd hs (by simp)
  | watcher =>
    simp only [step, watcher] at hs
    split at hs
    · split at hs
      · split at hs
        · simp only [Except.ok.injEq] at hs
          subst hs
          exact h
        · exact absurd hs (by simp)
      · simp only [Except.ok.injEq] at hs
        subst hs
        exact h
    · simp only [Except.ok.injEq] at hs
      subst hs
      exact h
  | callErr =>
    simp only [step, Except.ok.injEq] at hs
    subst hs
    intro hne
    cases hcache : r.ctx.err with
    | some e =>
      have : r.ctx.Err = (some e, r.ctx) := Err_of_cached _ e hcache
      simp only [this]
      exact h (by simp [hcache])
    | none =>
      have hE := Err_of_unset r.ctx hcache
      simp only [hE] at hne ⊢
      cases hc : r.ctx.child.Err with
      | some e => exact Or.inl (by simp)
      | none =>
        simp only [hc, Option.none_orElse, Option.orElse_none, ne_eq] at hne
        exact Or.inr (by simpa [hc] using hne)

/-- Every run keeps `cacheFromSources`. -/
theorem run_cacheFromSources (es : List Event) :
    ∀ r r1 : Running, cacheFromSources r → run r es = .ok r1 → cacheFromSources r1 := by
  induction es with
  | nil =>
    intro r r1 h hr
    simp only [run, Except.ok.injEq] at hr
    subst hr
    exact h
  | cons ev rest ih =>
    intro r r1 h hr
    simp only [run] at hr
    cases hs : step r ev with
    | error msg => simp [hs] at hr
    | ok r2 =>
      simp only [hs] at hr
      exact ih r2 r1 (step_cacheFromSources r r2 ev h hs) hr

/-- What `Merge` sets up for two non-nil contexts. -/
theorem Merge_some_some (p c : Context) :
    Merge (some p) (some c)
      = .ok (.merge ⟨{ child := c, parent := p, ch := make, err := none }, make, true⟩) := rfl

/-- C6, counterexample: after `Merge(Background, Background)` the child
becomes done; before the watcher has closed the channel of `Done()`, `Err()`
already returns the child's error. -/
theorem err_before_signal_counterexample :
    ∃ r0 r, Merge (some Background) (some Background) = .ok (.merge r0) ∧
      run r0 [.childDone "context canceled"] = .ok r ∧
      r.ctx.Done.closed = false ∧ r.ctx.Err.1 = some "context canceled" :=
  ⟨_, _, rfl, rfl, rfl, rfl⟩

/-- C6, amended: in every state reached from `Merge(parent, child)` in which
the channel of `Done()` is not yet closed, `Err()` returns nil exactly when
neither the child nor the parent reports an error. -/
theorem err_none_before_signal (p c : Context) (r0 r : Running) (es : List Event)
    (hm : Merge (some p) (some c) = .ok (.merge r0)) (hr : run r0 es = .ok r)
    (_hch : r.ctx.Done.closed = false) :
    r.ctx.Err.1 = none ↔ (r.ctx.child.Err = none ∧ r.ctx.parent.Err = none) := by
  rw [Merge_some_some] at hm
  simp only [Except.ok.injEq, Returned.merge.injEq] at hm
  have h0 : cacheFromSources r0 := by
    subst hm
    intro hne
    exact absurd rfl hne
  have hinv : cacheFromSources r := run_cacheFromSources es r0 r h0 hr
  constructor
  · intro hE
    have hcache : r.ctx.err = none := by
      cases hce : r.ctx.err with
      | none => rfl
      | some e => rw [Err_of_cached _ e hce] at hE; simp at hE
    rw [Err_of_unset _ hcache] at hE
    cases hc : r.ctx.child.Err with
    | some e => simp [hc] at hE
    | none => simpa [hc] using hE
  · rintro ⟨hc, hp⟩
    have hcache : r.ctx.err = none := by
      by_contra hne
      rcases hinv hne with h | h
      · exact h hc
      · exact h hp
    rw [Err_of_unset _ hcache]
    simp [hc, hp]

/-- C6 amended, on two states with the channel of `Done()` still open: right
after `Merge` of two live contexts `Err()` is nil, and once the child is done
it is not. -/
theorem err_none_before_signal_witness :
    ((⟨{ child := Background, parent := Background, ch := make, err := none }, make, true⟩
        : Running).ctx.Err.1 = none ↔
      ((Background.Err = none) ∧ (Background.Err = none))) ∧
    ((⟨{ child := Background.finish "context canceled", parent := Background, ch := make,
          err := none }, make, true⟩ : Running).ctx.Err.1 = none ↔
      ((Background.finish "context canceled").Err = none ∧ Background.Err = none)) :=
  ⟨err_none_before_signal Background Background _ _ [] rfl rfl rfl,
   err_none_before_signal Background Background _ _ [.childDone "context canceled"]
     rfl rfl rfl⟩

/-- C7, the code at the failing input: after `Merge(Background, Background)`
the cancel function is called and the watcher closes the channel of `Done()`;
the merged context is done, yet `Err()` returns nil, on the first call and on
the next. -/
theorem cancel_done_err_nil :
    ∃ r0 r, Merge (some Background) (some Background) = .ok (.merge r0) ∧
      run r0 [.cancel, .watcher] = .ok r ∧
      r.ctx.Done.closed = true ∧ r.ctx.Err.1 = none ∧ r.ctx.Err.2.Err.1 = none :=
  ⟨_, _, rfl, rfl, rfl, rfl, rfl⟩

/-- The path of `Merge` for a nil child: once its cancel function is called,
the derived-cancel context reports an error, which is `context.Canceled` when
the parent is not done. -/
theorem withCancel_cancel_Err (p : Context) :
    ∃ c, Merge (some p) none = .ok (.withCancel c) ∧
      c.cancel.Err ≠ none ∧
      (p.Done = false → c.cancel.Err = some "context canceled") := by
  refine ⟨_, rfl, ?_, ?_⟩
  · cases hd : p.Done <;> cases he : p.Err <;>
      simp [WithCancel, cancelCtx.cancel, cancelCtx.Err, hd, he]
  · intro hd
    simp [WithCancel, cancelCtx.cancel, cancelCtx.Err, hd]

/-- While both sources are live and the cancel function has not been called,
the watcher stays blocked and `Err()` changes nothing. -/
theorem step_live (r : Running) (ev : Event) (hev : ev = .watcher ∨ ev = .callErr)
    (hc : r.ctx.child.Done = false) (hp : r.ctx.parent.Done = false)
    (hk : r.cancelCh.closed = false) (hce : r.ctx.child.Err = none)
    (hpe : r.ctx.parent.Err = none) (he : r.ctx.err = none) :
    step r ev = .ok r := by
  rcases hev with h | h <;> subst h
  · simp [step, watcher, hc, hp, hk]
  · have hE := Err_of_unset r.ctx he
    simp only [hce, hpe] at hE
    simp only [step, hE]
    obtain ⟨⟨c, p, ch, err⟩, k, w⟩ := r
    simp only at he
    subst he
    rfl

/-- A run of watcher schedulings and `Err()` calls over live sources leaves
the state as it is. -/
theorem run_live (es : List Event) (r : Running)
    (hes : ∀ ev ∈ es, ev = Event.watcher ∨ ev = Event.callErr)
    (hc : r.ctx.child.Done = false) (hp : r.ctx.parent.Done = false)
    (hk : r.cancelCh.closed = false) (hce : r.ctx.child.Err = none)
    (hpe : r.ctx.parent.Err = none) (he : r.ctx.err = none) :
    run r es = .ok r := by
  induction es with
  | nil => rfl
  | cons ev rest ih =>
    have h1 := step_live r ev (hes ev (List.mem_cons_self _ _)) hc hp hk hce hpe he
    simp only [run, h1]
    exact ih (fun ev1 hmem => hes ev1 (List.mem_cons_of_mem _ hmem))

/-- C8: for a non-nil parent and a non-nil child of which neither is done
(closed `Done()` channel or non-nil `Err()`), `Merge` returns a merged context
whose `Done()` channel is open and whose `Err()` is nil; and as long as the
cancel function is not called and the sources stay live, however often the
watcher is scheduled and `Err()` is called, that remains so. -/
theorem merge_live_not_done (p c : Context) (hp : p.Done = false) (hc : c.Done = false)
    (hpe : p.Err = none) (hce : c.Err = none) :
    ∃ r0, Merge (some p) (some c) = .ok (.merge r0) ∧
      r0.ctx.Done.closed = false ∧ r0.ctx.Err.1 = none ∧
      ∀ es : List Event, (∀ ev ∈ es, ev = Event.watcher ∨ ev = Event.callErr) →
        ∃ r, run r0 es = .ok r ∧ r.ctx.Done.closed = false ∧ r.ctx.Err.1 = none := by
  refine ⟨_, Merge_some_some p c, rfl, ?_, ?_⟩
  · rw [Err_of_unset _ rfl]
    simp [hce, hpe]
  · intro es hes
    refine ⟨_, run_live es _ hes hc hp rfl hce hpe rfl, rfl, ?_⟩
    rw [Err_of_unset _ rfl]
    simp [hce, hpe]

/-- C8 on the contexts of the tests: two background contexts. -/
theorem merge_live_not_done_witness :
    ∃ r0, Merge (some Background) (some Background) = .ok (.merge r0) ∧
      r0.ctx.Done.closed = false ∧ r0.ctx.Err.1 = none ∧
      ∀ es : List Event, (∀ ev ∈ es, ev = Event.watcher ∨ ev = Event.callErr) →
        ∃ r, run r0 es = .ok r ∧ r.ctx.Done.closed = false ∧ r.ctx.Err.1 = none :=
  merge_live_not_done Background Background rfl rfl rfl rfl

/-! ## Merge -/

/-- C9: `Merge` panics exactly when the parent is nil: with a nil parent it
panics with "ctx must not be nil" whatever the child, and with a non-nil
parent it returns. -/
theorem merge_panics_iff_nil (ctx child : Option Context) :
    ((∃ msg, Merge ctx child = .error msg) ↔ ctx = none) ∧
    ((∃ ret, Merge ctx child = .ok ret) ↔ ctx ≠ none) ∧
    Merge none child = .error "ctx must not be nil" := by
  cases ctx with
  | none => simp [Merge]
  | some p => cases child <;> simp [Merge]

/-- C10: for a non-nil parent, `Merge(parent, nil)` returns what
`context.WithCancel(parent)` returns, not a `mergeContext` with a watcher;
the `Value` and `Deadline` of the result are the parent's. -/
theorem merge_nil_child (p : Context) :
    Merge (some p) none = .ok (.withCancel (WithCancel p)) ∧
    (∀ r, Merge (some p) none ≠ .ok (.merge r)) ∧
    (∀ key, (WithCancel p).Value key = p.Value key) ∧
    (WithCancel p).Deadline = p.Deadline := by
  refine ⟨rfl, ?_, fun _ => rfl, rfl⟩
  intro r h
  simp [Merge] at h

/-! ## The cancel function -/

/-- The returned cancel function never panics when called on its own, and it
leaves `cancelCh` closed and everything else as it was. -/
theorem cancel_ok (r : Running) :
    cancel r = .ok { r with cancelCh := ⟨true⟩ } := by
  obtain ⟨ctx, ⟨k⟩, w⟩ := r
  cases k <;> rfl

/-- C11: `idempotentlyClose` closes an open channel and leaves a closed one
closed, without panicking; so calling the returned cancel function `n` times
in a row, for any `n` of at least one, never panics and leaves the same state
as calling it once: `cancelCh` closed and nothing else changed. -/
theorem cancel_idempotent (r : Running) (n : Nat) (hn : 1 ≤ n) :
    idempotentlyClose make = .ok ⟨true⟩ ∧
    idempotentlyClose ⟨true⟩ = .ok ⟨true⟩ ∧
    cancel r = .ok { r with cancelCh := ⟨true⟩ } ∧
    run r (List.replicate n Event.cancel) = cancel r := by
  refine ⟨rfl, rfl, cancel_ok r, ?_⟩
  obtain ⟨m, rfl⟩ : ∃ m, n = m + 1 := ⟨n - 1, by omega⟩
  clear hn
  induction m generalizing r with
  | zero => simp [run, step, cancel_ok]
  | succ m ih =>
    have h := ih { r with cancelCh := ⟨true⟩ }
    rw [cancel_ok] at h
    rw [List.replicate_succ, run]
    simp only [step, cancel_ok]
    exact h

/-- C11 on the context of `Merge(Background, Background)`: three calls of
the cancel function leave what one call leaves. -/
theorem cancel_idempotent_witness :
    run ⟨{ child := Background, parent := Background, ch := make, err := none }, make, true⟩
        [.cancel, .cancel, .cancel]
      = cancel ⟨{ child := Background, parent := Background, ch := make, err := none },
          make, true⟩ :=
  (cancel_idempotent
    ⟨{ child := Background, parent := Background, ch := make, err := none }, make, true⟩
    3 (by decide)).2.2.2

/-! ## The completion signal -/

/-- A source that is done stays done. -/
theorem finish_Done (c : Context) (e : Error) (h : c.Done = true) :
    (c.finish e).Done = true := by
  simp [Context.finish, h]

/-- What one scheduling of the watcher does: it closes `ch` and ends when it
reaches `close(ch)`, and changes nothing when it does not. -/
theorem watcher_eq (r : Running) (h : watcherOwnsSignal r) :
    watcher r =
      .ok (if reachesClose r = true then
        { r with ctx := { r.ctx with ch := ⟨true⟩ }, watching := false } else r) := by
  obtain ⟨⟨c, p, ⟨k⟩, err⟩, ⟨cc⟩, w⟩ := r
  simp only [watcherOwnsSignal] at h
  subst h
  cases k
  · simp only [watcher, reachesClose, close, Bool.not_false, if_true, Bool.true_and]
    split <;> simp
  · simp [watcher, reachesClose]

/-- No event panics in a state where the watcher owns the signal. -/
theorem step_ok (r : Running) (ev : Event) (h : watcherOwnsSignal r) :
    ∃ r1, step r ev = .ok r1 := by
  cases ev with
  | childDone e => exact ⟨_, rfl⟩
  | parentDone e => exact ⟨_, rfl⟩
  | cancel => exact ⟨_, cancel_ok r⟩
  | watcher => exact ⟨_, watcher_eq r h⟩
  | callErr => exact ⟨_, rfl⟩

/-- Every event keeps `watcherOwnsSignal`. -/
theorem step_watcherOwnsSignal (r r1 : Running) (ev : Event) (h : watcherOwnsSignal r)
    (hs : step r ev = .ok r1) : watcherOwnsSignal r1 := by
  cases ev with
  | childDone e =>
    simp only [step, Except.ok.injEq] at hs
    subst hs
    exact h
  | parentDone e =>
    simp only [step, Except.ok.injEq] at hs
    subst hs
    exact h
  | cancel =>
    simp only [step, cancel_ok, Except.ok.injEq] at hs
    subst hs
    exact h
  | watcher =>
    simp only [step, watcher_eq r h, Except.ok.injEq] at hs
    subst hs
    split
    · simp [watcherOwnsSignal]
    · exact h
  | callErr =>
    simp only [step, Except.ok.injEq] at hs
    subst hs
    simp only [watcherOwnsSignal, mergeContext.Err] at h ⊢
    split <;> [split; skip] <;> exact h

/-- Every event keeps `signalHasCause`. -/
theorem step_signalHasCause (r r1 : Running) (ev : Event) (hw : watcherOwnsSignal r)
    (h : signalHasCause r) (hs : step r ev = .ok r1) : signalHasCause r1 := by
  cases ev with
  | childDone e =>
    simp only [step, Except.ok.injEq] at hs
    subst hs
    intro hc
    rcases h hc with h1 | h1 | h1
    · exact Or.inl (finish_Done _ e h1)
    · exact Or.inr (Or.inl h1)
    · exact Or.inr (Or.inr h1)
  | parentDone e =>
    simp only [step, Except.ok.injEq] at hs
    subst hs
    intro hc
    rcases h hc with h1 | h1 | h1
    · exact Or.inl h1
    · exact Or.inr (Or.inl (finish_Done _ e h1))
    · exact Or.inr (Or.inr h1)
  | cancel =>
    simp only [step, cancel_ok, Except.ok.injEq] at hs
    subst hs
    intro _
    exact Or.inr (Or.inr rfl)
  | watcher =>
    simp only [step, watcher_eq r hw, Except.ok.injEq] at hs
    subst hs
    by_cases hr : reachesClose r = true
    · simp only [hr, if_true]
      intro _
      simp only [reachesClose, Bool.and_eq_true, Bool.or_eq_true] at hr
      rcases hr.2 with (h1 | h1) | h1
      · exact Or.inl h1
      · exact Or.inr (Or.inl h1)
      · exact Or.inr (Or.inr h1)
    · simp only [hr]
      exact h
  | callErr =>
    simp only [step, Except.ok.injEq] at hs
    subst hs
    simp only [signalHasCause, mergeContext.Err] at h ⊢
    split <;> [split; skip] <;> exact h

/-- A run of an event followed by others succeeds exactly when the event
does and the rest of the run does from there. -/
theorem run_cons_ok (r r1 : Running) (ev : Event) (es : List Event) :
    run r (ev :: es) = .ok r1 ↔ ∃ r2, step r ev = .ok r2 ∧ run r2 es = .ok r1 := by
  simp only [run]
  cases step r ev with
  | error msg => simp
  | ok r2 => simp

/-- A property kept by every event, in states where the watcher owns the
signal, is kept by every run. -/
theorem run_keeps (P : Running → Prop)
    (hstep : ∀ r r1 ev, watcherOwnsSignal r → P r → step r ev = .ok r1 → P r1)
    (es : List Event) :
    ∀ r r1, watcherOwnsSignal r → P r → run r es = .ok r1 → P r1 := by
  induction es with
  | nil =>
    intro r r1 _ h hr
    simp only [run, Except.ok.injEq] at hr
    subst hr
    exact h
  | cons ev rest ih =>
    intro r r1 hw h hr
    obtain ⟨r2, hs, hr2⟩ := (run_cons_ok r r1 ev rest).mp hr
    exact ih r2 r1 (step_watcherOwnsSignal r r2 ev hw hs) (hstep r r2 ev hw h hs) hr2

/-- No run panics from a state where the watcher owns the signal. -/
theorem run_ok (es : List Event) :
    ∀ r, watcherOwnsSignal r → ∃ r1, run r es = .ok r1 := by
  induction es with
  | nil => intro r _; exact ⟨r, rfl⟩
  | cons ev rest ih =>
    intro r hw
    obtain ⟨r2, hs⟩ := step_ok r ev hw
    obtain ⟨r1, hr⟩ := ih r2 (step_watcherOwnsSignal r r2 ev hw hs)
    exact ⟨r1, (run_cons_ok r r1 ev rest).mpr ⟨r2, hs, hr⟩⟩

/-- After a run `cancelCh` is closed exactly when it was closed before or the
cancel function was called during the run. -/
theorem run_cancelCh (es : List Event) :
    ∀ r r1, watcherOwnsSignal r → run r es = .ok r1 →
      (r1.cancelCh.closed = true ↔ (r.cancelCh.closed = true ∨ Event.cancel ∈ es)) := by
  induction es with
  | nil =>
    intro r r1 _ hr
    simp only [run, Except.ok.injEq] at hr
    subst hr
    simp
  | cons ev rest ih =>
    intro r r1 hw hr
    obtain ⟨r2, hs, hr2⟩ := (run_cons_ok r r1 ev rest).mp hr
    rw [ih r2 r1 (step_watcherOwnsSignal r r2 ev hw hs) hr2]
    cases ev with
    | childDone e =>
      simp only [step, Except.ok.injEq] at hs
      subst hs
      simp
    | parentDone e =>
      simp only [step, Except.ok.injEq] at hs
      subst hs
      simp
    | cancel =>
      simp only [step, cancel_ok, Except.ok.injEq] at hs
      subst hs
      simp
    | watcher =>
      simp only [step, watcher_eq r hw, Except.ok.injEq] at hs
      subst hs
      split <;> simp
    | callErr =>
      simp only [step, Except.ok.injEq] at hs
      subst hs
      simp

/-- The state set up by `Merge` satisfies both signal invariants. -/
theorem Merge_invariants (p c : Context) (r0 : Running)
    (hm : Merge (some p) (some c) = .ok (.merge r0)) :
    watcherOwnsSignal r0 ∧ signalHasCause r0 ∧ r0.cancelCh.closed = false ∧
      r0.ctx.ch.closed = false := by
  rw [Merge_some_some] at hm
  simp only [Except.ok.injEq, Returned.merge.injEq] at hm
  subst hm
  exact ⟨rfl, fun h => absurd h (by simp [make]), rfl, rfl⟩

/-- C12: in every state reached from `Merge(parent, child)` by source
completions, calls of the cancel function, schedulings of the watcher and
calls of `Err()`, the channel of `Done()` is closed only if the child is
done, the parent is done, or the cancel function has been called; while all
three are pending the merged context is not done. -/
theorem signal_only_if_cause (p c : Context) (r0 r : Running) (es : List Event)
    (hm : Merge (some p) (some c) = .ok (.merge r0)) (hr : run r0 es = .ok r) :
    (r.ctx.Done.closed = true →
      (r.ctx.child.Done = true ∨ r.ctx.parent.Done = true ∨ Event.cancel ∈ es)) ∧
    (r.cancelCh.closed = true ↔ Event.cancel ∈ es) ∧
    (r.ctx.child.Done = false → r.ctx.parent.Done = false → Event.cancel ∉ es →
      r.ctx.Done.closed = false) := by
  obtain ⟨hw, hc, hk, _⟩ := Merge_invariants p c r0 hm
  have hcause : signalHasCause r :=
    run_keeps signalHasCause step_signalHasCause es r0 r hw hc hr
  have hcancel : r.cancelCh.closed = true ↔ Event.cancel ∈ es := by
    rw [run_cancelCh es r0 r hw hr, hk]
    simp
  refine ⟨?_, hcancel, ?_⟩
  · intro hd
    rcases hcause hd with h | h | h
    · exact Or.inl h
    · exact Or.inr (Or.inl h)
    · exact Or.inr (Or.inr (hcancel.mp h))
  · intro h1 h2 h3
    by_contra hd
    have hd1 : r.ctx.ch.closed = true := by
      simpa [mergeContext.Done] using hd
    rcases hcause hd1 with h | h | h
    · simp [h1] at h
    · simp [h2] at h
    · exact h3 (hcancel.mp h)

/-- C12 on a run in which the watcher is scheduled before and after the
parent becomes done: the signal is set, and the parent is done. -/
theorem signal_only_if_cause_witness :
    ∃ r0 r, Merge (some Background) (some Background) = .ok (.merge r0) ∧
      run r0 [.watcher, .callErr, .parentDone "context canceled", .watcher] = .ok r ∧
      r.ctx.Done.closed = true ∧ r.ctx.parent.Done = true ∧
      ((r.ctx.Done.closed = true →
        (r.ctx.child.Done = true ∨ r.ctx.parent.Done = true ∨
          Event.cancel ∈ [Event.watcher, .callErr, .parentDone "context canceled", .watcher])) ∧
      (r.cancelCh.closed = true ↔
        Event.cancel ∈ [Event.watcher, .callErr, .parentDone "context canceled", .watcher]) ∧
      (r.ctx.child.Done = false → r.ctx.parent.Done = false →
        Event.cancel ∉ [Event.watcher, .callErr, .parentDone "context canceled", .watcher] →
        r.ctx.Done.closed = false)) :=
  ⟨_, _, rfl, rfl, rfl, rfl,
    signal_only_if_cause Background Background _ _
      [.watcher, .callErr, .parentDone "context canceled", .watcher] rfl rfl⟩

/-- One event executes `close(ch)` exactly when it takes the channel of
`Done()` from open to closed. -/
theorem step_closeCount (r r1 : Running) (ev : Event) (hw : watcherOwnsSignal r)
    (hs : step r ev = .ok r1) :
    (if ev = Event.watcher ∧ reachesClose r = true then 1 else 0) +
        (if r.ctx.ch.closed = true then 1 else 0)
      = (if r1.ctx.ch.closed = true then 1 else 0) := by
  cases ev with
  | childDone e =>
    simp only [step, Except.ok.injEq] at hs
    subst hs
    simp
  | parentDone e =>
    simp only [step, Except.ok.injEq] at hs
    subst hs
    simp
  | cancel =>
    simp only [step, cancel_ok, Except.ok.injEq] at hs
    subst hs
    simp
  | watcher =>
    simp only [step, watcher_eq r hw, Except.ok.injEq] at hs
    subst hs
    by_cases hr : reachesClose r = true
    · have hopen : r.ctx.ch.closed = false := by
        simp only [reachesClose, Bool.and_eq_true] at hr
        have h1 := hr.1
        rw [hw] at h1
        simpa using h1
      simp [hr, hopen]
    · simp [hr]
  | callErr =>
    simp only [step, Except.ok.injEq] at hs
    subst hs
    have : r.ctx.Err.2.ch = r.ctx.ch := by
      simp only [mergeContext.Err]
      split <;> [split; skip] <;> rfl
    simp [this]

/-- Along a run, the executions of `close(ch)` are what takes the channel of
`Done()` from open to closed. -/
theorem run_closeCount (es : List Event) :
    ∀ r r1, watcherOwnsSignal r → run r es = .ok r1 →
      closeCount r es + (if r.ctx.ch.closed = true then 1 else 0)
        = (if r1.ctx.ch.closed = true then 1 else 0) := by
  induction es with
  | nil =>
    intro r r1 _ hr
    simp only [run, Except.ok.injEq] at hr
    subst hr
    simp [closeCount]
  | cons ev rest ih =>
    intro r r1 hw hr
    obtain ⟨r2, hs, hr2⟩ := (run_cons_ok r r1 ev rest).mp hr
    have h1 := step_closeCount r r2 ev hw hs
    have h2 := ih r2 r1 (step_watcherOwnsSignal r r2 ev hw hs) hr2
    simp only [closeCount, hs]
    omega

/-- C15: from `Merge(parent, child)`, no run of source completions, calls of
the cancel function, watcher schedulings and `Err()` calls panics, so `ch` is
never closed twice; `close(ch)` is executed at most once, and exactly once
when the channel of `Done()` ends up closed; and once closed it is closed in
every later state, with no further `close(ch)`. -/
theorem signal_one_shot (p c : Context) (r0 : Running) (es : List Event)
    (hm : Merge (some p) (some c) = .ok (.merge r0)) :
    ∃ r, run r0 es = .ok r ∧
      closeCount r0 es ≤ 1 ∧
      (r.ctx.Done.closed = true ↔ closeCount r0 es = 1) ∧
      (r.ctx.Done.closed = true →
        ∀ es1, ∃ r1, run r es1 = .ok r1 ∧ r1.ctx.Done.closed = true ∧
          closeCount r es1 = 0) := by
  obtain ⟨hw, _, _, hopen⟩ := Merge_invariants p c r0 hm
  obtain ⟨r, hr⟩ := run_ok es r0 hw
  have hcount := run_closeCount es r0 r hw hr
  have hwr : watcherOwnsSignal r :=
    run_keeps watcherOwnsSignal (fun a b ev h _ hs => step_watcherOwnsSignal a b ev h hs)
      es r0 r hw hw hr
  simp only [hopen, Bool.false_eq_true, if_false, Nat.add_zero] at hcount
  refine ⟨r, hr, ?_, ?_, ?_⟩
  · rw [hcount]
    split <;> omega
  · rw [hcount]
    simp only [mergeContext.Done]
    split <;> simp_all
  · intro hd es1
    have hd1 : r.ctx.ch.closed = true := hd
    obtain ⟨r1, hr1⟩ := run_ok es1 r hwr
    have hcount1 := run_closeCount es1 r r1 hwr hr1
    simp only [hd1, if_true] at hcount1
    refine ⟨r1, hr1, ?_, ?_⟩
    · simp only [mergeContext.Done]
      cases hk : r1.ctx.ch.closed with
      | true => rfl
      | false =>
        simp only [hk, Bool.false_eq_true, if_false] at hcount1
        omega
    · split at hcount1 <;> omega

/-- C15 on a run in which child, parent and the cancel function are all ready
before the watcher is scheduled twice, with another cancel call afterwards. -/
theorem signal_one_shot_witness :
    ∃ r0, Merge (some Background) (some Background) = .ok (.merge r0) ∧
      ∃ r, run r0 [.childDone "child", .parentDone "parent", .cancel, .watcher, .watcher,
          .cancel] = .ok r ∧
        closeCount r0 [.childDone "child", .parentDone "parent", .cancel, .watcher, .watcher,
          .cancel] ≤ 1 ∧
        (r.ctx.Done.closed = true ↔
          closeCount r0 [.childDone "child", .parentDone "parent", .cancel, .watcher,
            .watcher, .cancel] = 1) ∧
        (r.ctx.Done.closed = true →
          ∀ es1, ∃ r1, run r es1 = .ok r1 ∧ r1.ctx.Done.closed = true ∧
            closeCount r es1 = 0) :=
  ⟨_, rfl, signal_one_shot Background Background _
    [.childDone "child", .parentDone "parent", .cancel, .watcher, .watcher, .cancel] rfl⟩

/-! ## Err: nil results -/

/-- A call of `Err()` that returns nil found the cache unset and leaves the
context as it was. -/
theorem Err_none_unchanged (ctx : mergeContext) (h : ctx.Err.1 = none) :
    ctx.err = none ∧ ctx.Err.2 = ctx := by
  have hcache : ctx.err = none := by
    cases hce : ctx.err with
    | none => rfl
    | some e => rw [Err_of_cached _ e hce] at h; simp at h
  refine ⟨hcache, ?_⟩
  rw [Err_of_unset _ hcache] at h ⊢
  simp only at h
  simp only [h]
  obtain ⟨c, p, ch, err⟩ := ctx
  simp only at hcache
  subst hcache
  rfl

/-- Calls of `Err()` that all return nil leave the cache unset and the channel
untouched. -/
theorem afterErrCalls_none (earlier : List (Context × Context)) :
    ∀ ctx : mergeContext, ctx.err = none → (∀ r ∈ ErrCalls ctx earlier, r = none) →
      (afterErrCalls ctx earlier).err = none ∧ (afterErrCalls ctx earlier).ch = ctx.ch := by
  induction earlier with
  | nil => intro ctx h _; exact ⟨h, rfl⟩
  | cons cp rest ih =>
    intro ctx h hall
    obtain ⟨c, p⟩ := cp
    simp only [ErrCalls, List.mem_cons, forall_eq_or_imp] at hall
    obtain ⟨hfirst, hrest⟩ := hall
    obtain ⟨_, hsame⟩ := Err_none_unchanged _ hfirst
    simp only [afterErrCalls]
    rw [hsame] at hrest ⊢
    exact ih (ctx.setSources c p) h hrest

/-- C16: a nil result of `Err()` is not frozen: after any calls that all
returned nil the cache is still unset, and whatever the sources report at the
next call, that call returns the child's error if not nil and the parent's
otherwise, which is what it would have returned had the earlier calls not
been made. -/
theorem err_none_not_frozen (ctx : mergeContext) (earlier : List (Context × Context))
    (hne : earlier ≠ []) (hnone : ∀ r ∈ ErrCalls ctx earlier, r = none) (c p : Context) :
    (afterErrCalls ctx earlier).err = none ∧
    ((afterErrCalls ctx earlier).setSources c p).Err.1 = (c.Err <|> p.Err) ∧
    ((afterErrCalls ctx earlier).setSources c p).Err.1 = (ctx.setSources c p).Err.1 := by
  have hcache : ctx.err = none := by
    cases earlier with
    | nil => exact absurd rfl hne
    | cons cp rest =>
      obtain ⟨c0, p0⟩ := cp
      have h1 : (ctx.setSources c0 p0).Err.1 = none :=
        hnone _ (by simp [ErrCalls])
      exact (Err_none_unchanged _ h1).1
  obtain ⟨hafter, _⟩ := afterErrCalls_none earlier ctx hcache hnone
  have h1 : ((afterErrCalls ctx earlier).setSources c p).err = none := hafter
  have h2 : (ctx.setSources c p).err = none := hcache
  refine ⟨hafter, ?_, ?_⟩
  · rw [Err_of_unset _ h1]
    rfl
  · rw [Err_of_unset _ h1, Err_of_unset _ h2]
    rfl

/-- C16 on two calls of `Err()` over live sources followed by the child
becoming done: the next call returns the child's cause. -/
theorem err_none_not_frozen_witness :
    ErrCalls (mergeContext.mk Background Background make none)
        [(Background, Background), (Background, Background)] = [none, none] ∧
    ((afterErrCalls (mergeContext.mk Background Background make none)
        [(Background, Background), (Background, Background)]).setSources
        (Background.finish "child-cancelled") Background).Err.1 = some "child-cancelled" :=
  ⟨rfl,
   (err_none_not_frozen (mergeContext.mk Background Background make none)
      [(Background, Background), (Background, Background)] (by simp)
      (by intro r hr; simp [ErrCalls, mergeContext.setSources, mergeContext.Err, Background] at hr; exact hr)
      (Background.finish "child-cancelled") Background).2.1⟩

/-! ## Deadline: symmetry and nesting -/

/-- What `Deadline()` of a merged context reports is the earliest of what its
two sources report. -/
theorem reported_Deadline (ctx : mergeContext) :
    reported ctx.Deadline
      = earliest [reported ctx.parent.Deadline, reported ctx.child.Deadline] := by
  obtain ⟨c, p, ch, err⟩ := ctx
  obtain ⟨cd, ce, ⟨d1, ok1⟩, cv⟩ := c
  obtain ⟨pd, pe, ⟨d2, ok2⟩, pv⟩ := p
  cases ok1 <;> cases ok2 <;> simp [mergeContext.Deadline, reported, earliest]
  by_cases hlt : d1.nsec < d2.nsec
  · simp [Time.Before, hlt, min_eq_right hlt.le]
  · simp [Time.Before, hlt, min_eq_left (not_lt.mp hlt)]

/-- C17: merging a and b with a as parent and b as child, or with b as parent
and a as child, gives the same presence flag from `Deadline()` and, when a
deadline is present, the same instant; also when the two deadlines are at the
same instant, where each merge returns the timestamp of its own parent. -/
theorem deadline_symmetric (a b : Context) (r1 r2 : Running)
    (h1 : Merge (some a) (some b) = .ok (.merge r1))
    (h2 : Merge (some b) (some a) = .ok (.merge r2)) :
    r1.ctx.Deadline.2 = r2.ctx.Deadline.2 ∧
    (r1.ctx.Deadline.2 = true → r1.ctx.Deadline.1.nsec = r2.ctx.Deadline.1.nsec) ∧
    reported r1.ctx.Deadline = reported r2.ctx.Deadline ∧
    (a.Deadline.2 = true → b.Deadline.2 = true → a.Deadline.1.nsec = b.Deadline.1.nsec →
      r1.ctx.Deadline = (a.Deadline.1, true) ∧ r2.ctx.Deadline = (b.Deadline.1, true)) := by
  rw [Merge_some_some] at h1 h2
  simp only [Except.ok.injEq, Returned.merge.injEq] at h1 h2
  subst h1 h2
  have hrep : reported (mergeContext.mk b a make none).Deadline
      = reported (mergeContext.mk a b make none).Deadline := by
    rw [reported_Deadline, reported_Deadline]
    simp only
    cases reported a.Deadline <;> cases reported b.Deadline <;> simp [earliest, min_comm]
  have hflag : ∀ d : Time × Bool, d.2 = (reported d).isSome := by
    intro d
    cases hd : d.2 <;> simp [reported, hd]
  refine ⟨?_, ?_, hrep, ?_⟩
  · rw [hflag, hflag, hrep]
  · intro ht
    have ht2 : (mergeContext.mk a b make none).Deadline.2 = true := by
      rw [hflag, ← hrep, ← hflag]
      exact ht
    have := hrep
    simp only [reported, ht, ht2, if_true, Option.some.injEq] at this
    exact this
  · intro ha hb hab
    obtain ⟨ad, ae, ⟨d1, ok1⟩, av⟩ := a
    obtain ⟨bd, be, ⟨d2, ok2⟩, bv⟩ := b
    simp only at ha hb hab
    subst ha hb
    simp [mergeContext.Deadline, Time.Before, hab]

/-- C17 on two deadlines at the same instant in different locations, and on
two deadlines an hour apart. -/
theorem deadline_symmetric_witness :
    (∃ r1 r2,
      Merge (some (Background.withDeadline ⟨hour, 1⟩)) (some (Background.withDeadline ⟨hour, 2⟩))
        = .ok (.merge r1) ∧
      Merge (some (Background.withDeadline ⟨hour, 2⟩)) (some (Background.withDeadline ⟨hour, 1⟩))
        = .ok (.merge r2) ∧
      r1.ctx.Deadline = (⟨hour, 1⟩, true) ∧ r2.ctx.Deadline = (⟨hour, 2⟩, true) ∧
      reported r1.ctx.Deadline = reported r2.ctx.Deadline) ∧
    (∃ r1 r2,
      Merge (some (Background.withDeadline ⟨hour, 0⟩))
        (some (Background.withDeadline ⟨2 * hour, 0⟩)) = .ok (.merge r1) ∧
      Merge (some (Background.withDeadline ⟨2 * hour, 0⟩))
        (some (Background.withDeadline ⟨hour, 0⟩)) = .ok (.merge r2) ∧
      reported r1.ctx.Deadline = some hour ∧
      reported r1.ctx.Deadline = reported r2.ctx.Deadline) :=
  ⟨⟨_, _, rfl, rfl, by decide, by decide,
      (deadline_symmetric (Background.withDeadline ⟨hour, 1⟩)
        (Background.withDeadline ⟨hour, 2⟩) _ _ rfl rfl).2.2.1⟩,
   ⟨_, _, rfl, rfl, by decide,
      (deadline_symmetric (Background.withDeadline ⟨hour, 0⟩)
        (Background.withDeadline ⟨2 * hour, 0⟩) _ _ rfl rfl).2.2.1⟩⟩

/-- C18: for non-nil a, b and c, the context `Merge(Merge(a, b), c)` reports
from `Deadline()` the earliest of the deadlines that a, b and c report, and
none if none reports one, and returns from `Value(key)` the first non-nil
value in the order c, b, a. -/
theorem merge_nested (a b c : Context) (inner : Returned) (r : Running)
    (h1 : Merge (some a) (some b) = .ok inner)
    (h2 : Merge (some inner.asContext) (some c) = .ok (.merge r)) :
    reported r.ctx.Deadline
      = earliest [reported a.Deadline, reported b.Deadline, reported c.Deadline] ∧
    (∀ key, r.ctx.Value key = [c, b, a].findSome? (fun x => x.Value key)) ∧
    (r.ctx.Deadline.2 = true →
      (r.ctx.Deadline.1 = a.Deadline.1 ∨ r.ctx.Deadline.1 = b.Deadline.1 ∨
        r.ctx.Deadline.1 = c.Deadline.1)) := by
  rw [Merge_some_some] at h1
  simp only [Except.ok.injEq] at h1
  subst h1
  rw [Merge_some_some] at h2
  simp only [Except.ok.injEq, Returned.merge.injEq] at h2
  subst h2
  refine ⟨?_, ?_, ?_⟩
  · rw [reported_Deadline]
    simp only [Returned.asContext, mergeContext.asContext]
    rw [reported_Deadline]
    simp only
    cases reported a.Deadline <;> cases reported b.Deadline <;> cases reported c.Deadline <;>
      simp [earliest, min_comm, min_assoc, min_left_comm]
  · intro key
    simp only [mergeContext.Value, Returned.asContext, mergeContext.asContext,
      List.findSome?]
    cases c.Value key <;> cases b.Value key <;> cases a.Value key <;> rfl
  · obtain ⟨ad, ae, ⟨d1, ok1⟩, av⟩ := a
    obtain ⟨bd, be, ⟨d2, ok2⟩, bv⟩ := b
    obtain ⟨cd, ce, ⟨d3, ok3⟩, cv⟩ := c
    cases ok1 <;> cases ok2 <;> cases ok3 <;>
      simp [mergeContext.Deadline, Returned.asContext, mergeContext.asContext] <;>
      (repeat' split) <;> simp

/-- C18 on three contexts with deadlines at three, one and two hours, each
binding key 7, and the first also key 8. -/
theorem merge_nested_witness :
    ∃ inner r,
      Merge (some ((Background.withDeadline ⟨3 * hour, 0⟩).withValue 7 "a" |>.withValue 8 "a8"))
        (some ((Background.withDeadline ⟨1 * hour, 0⟩).withValue 7 "b")) = .ok inner ∧
      Merge (some inner.asContext)
        (some ((Background.withDeadline ⟨2 * hour, 0⟩).withValue 7 "c")) = .ok (.merge r) ∧
      reported r.ctx.Deadline = some (1 * hour) ∧
      r.ctx.Value 7 = some "c" ∧ r.ctx.Value 8 = some "a8" ∧ r.ctx.Value 9 = none :=
  ⟨_, _, rfl, rfl,
    ((merge_nested _ _ _ _ _ rfl rfl).1).trans (by decide),
    ((merge_nested _ _ _ _ _ rfl rfl).2.1 7).trans (by decide),
    ((merge_nested _ _ _ _ _ rfl rfl).2.1 8).trans (by decide),
    ((merge_nested _ _ _ _ _ rfl rfl).2.1 9).trans (by decide)⟩

/-! ## Concurrent calls of the cancel function -/

/-- An invocation of the cancel function that runs its two statements without
another caller in between does what `idempotentlyClose` does. -/
theorem cancelRace_alone (s : CancelRace) (i : Nat) (h : s.pcs i = .start) :
    cancelRace s [i, i] =
      match idempotentlyClose s.cancelCh with
      | .ok ch => .ok { cancelCh := ch, pcs := Function.update s.pcs i .returned }
      | .error msg => .error msg := by
  obtain ⟨⟨k⟩, pcs⟩ := s
  simp only at h
  cases k <;> simp [cancelRace, cancelStep, h, idempotentlyClose, close]

/-- C13, the code at the failing input: two callers invoke the cancel function
of a fresh merged context. If each runs `idempotentlyClose` without the other
in between, both return. If both execute the `select` before either executes
`close(cancelCh)`, both choose the default case, and the second `close` panics
with "close of closed channel". -/
theorem cancel_concurrent_panics :
    (∃ r0, Merge (some Background) (some Background) = .ok (.merge r0) ∧
      (∃ s, cancelRace (CancelRace.start r0.cancelCh) [0, 0, 1, 1] = .ok s ∧
        s.cancelCh.closed = true ∧ s.pcs 0 = .returned ∧ s.pcs 1 = .returned) ∧
      (∃ s, cancelRace (CancelRace.start r0.cancelCh) [0, 1, 0] = .ok s ∧
        s.cancelCh.closed = true ∧ s.pcs 0 = .returned ∧ s.pcs 1 = .closing) ∧
      cancelRace (CancelRace.start r0.cancelCh) [0, 1, 0, 1]
        = .error "close of closed channel") :=
  ⟨_, rfl, ⟨_, rfl, rfl, rfl, rfl⟩, ⟨_, rfl, rfl, rfl, rfl⟩, rfl⟩

/-! ## Concurrent calls of `Err()` -/

/-- The body of `if ctx.err == nil` stores the child's error if not nil and
the parent's otherwise, and touches nothing else. -/
theorem resolve_fields (ctx : mergeContext) :
    (match ctx.child.Err with
      | some err => ({ ctx with err := some err } : mergeContext)
      | none => { ctx with err := ctx.parent.Err })
      = { ctx with err := (ctx.child.Err <|> ctx.parent.Err) } := by
  cases ctx.child.Err <;> rfl

/-- The start of a race satisfies the invariant, with the value a lone call
of `Err()` returns. -/
theorem ErrRaceInv_start (ctx : mergeContext) : ErrRaceInv ctx.Err.1 (ErrRace.start ctx) := by
  cases hc : ctx.err with
  | none =>
    rw [Err_of_unset ctx hc]
    exact {
      resolvesTo := fun _ => rfl
      cache := Or.inl hc
      atResolve := fun i hi => by simp [ErrRace.start] at hi
      atRet := fun i hi => by simp [ErrRace.start] at hi
      returned := fun i w hi => by simp [ErrRace.start] at hi
      excl := fun i j hi => by simp [ErrRace.start, ErrPc.holdsLock] at hi
      free := fun _ i => rfl
      held := fun hl => by simp [ErrRace.start] at hl }
  | some e =>
    rw [Err_of_cached ctx e hc]
    exact {
      resolvesTo := fun h => by simp [ErrRace.start, hc] at h
      cache := Or.inr hc
      atResolve := fun i hi => by simp [ErrRace.start] at hi
      atRet := fun i hi => by simp [ErrRace.start] at hi
      returned := fun i w hi => by simp [ErrRace.start] at hi
      excl := fun i j hi => by simp [ErrRace.start, ErrPc.holdsLock] at hi
      free := fun _ i => rfl
      held := fun hl => by simp [ErrRace.start] at hl }

/-- The start of a race satisfies the invariant on the executions of the body
of the `if`. -/
theorem ErrCountInv_start (ctx : mergeContext) :
    ErrCountInv ctx.err ctx.Err.1 (ErrRace.start ctx) where
  passed := fun i hi => by simp [ErrRace.start] at hi
  nodup := List.nodup_nil
  kept := fun _ => rfl
  cached := fun _ => rfl
  once := fun h _ => by simp [ErrRace.start, h]
  each := fun _ _ i hi => by simp [ErrRace.start, ErrPc.pastBody] at hi

/-- Every statement of every caller keeps the invariant. -/
theorem errStep_inv (v : Option Error) (s : ErrRace) (i : Nat) (h : ErrRaceInv v s) :
    ErrRaceInv v (errStep s i) := by
  unfold errStep
  cases hpc : s.pcs i with
  | start =>
    simp only
    cases hl : s.locked with
    | true => simpa using h
    | false =>
      have hfree := h.free hl
      simp only [Bool.false_eq_true, if_false]
      refine ⟨h.resolvesTo, h.cache, ?_, ?_, ?_, ?_, ?_, ?_⟩
      · intro j hj
        by_cases hji : j = i
        · subst hji; simp at hj
        · simp only [Function.update_noteq hji] at hj; exact h.atResolve j hj
      · intro j hj
        by_cases hji : j = i
        · subst hji; simp at hj
        · simp only [Function.update_noteq hji] at hj; exact h.atRet j hj
      · intro j w hj
        by_cases hji : j = i
        · subst hji; simp at hj
        · simp only [Function.update_noteq hji] at hj; exact h.returned j w hj
      · intro j k hj hk
        by_cases hji : j = i
        · by_cases hki : k = i
          · rw [hji, hki]
          · simp [Function.update_noteq hki, hfree k] at hk
        · simp [Function.update_noteq hji, hfree j] at hj
      · intro hfalse
        simp at hfalse
      · intro _
        exact ⟨i, by simp [ErrPc.holdsLock]⟩
  | check =>
    simp only
    have hhold : (s.pcs i).holdsLock = true := by rw [hpc]; rfl
    have hlocked : s.locked = true := by
      cases hl : s.locked with
      | true => rfl
      | false => rw [h.free hl i] at hhold; simp at hhold
    have hexcl : ∀ j, j ≠ i → (s.pcs j).holdsLock = false := by
      intro j hji
      cases hj : (s.pcs j).holdsLock with
      | false => rfl
      | true => exact absurd (h.excl j i hj hhold) hji
    by_cases hcache : s.ctx.err = none
    · simp only [hcache, if_true]
      refine ⟨h.resolvesTo, h.cache, ?_, ?_, ?_, ?_, ?_, ?_⟩
      · intro j _; exact hcache
      · intro j hj
        by_cases hji : j = i
        · subst hji; simp at hj
        · simp only [Function.update_noteq hji] at hj; exact h.atRet j hj
      · intro j w hj
        by_cases hji : j = i
        · subst hji; simp at hj
        · simp only [Function.update_noteq hji] at hj; exact h.returned j w hj
      · intro j k hj hk
        by_cases hji : j = i
        · by_cases hki : k = i
          · rw [hji, hki]
          · simp [Function.update_noteq hki, hexcl k hki] at hk
        · simp [Function.update_noteq hji, hexcl j hji] at hj
      · intro hfalse
        rw [hlocked] at hfalse; simp at hfalse
      · intro _
        exact ⟨i, by simp [ErrPc.holdsLock]⟩
    · simp only [hcache, if_false]
      have hv : s.ctx.err = v := by
        rcases h.cache with hc | hc
        · exact absurd hc hcache
        · exact hc
      refine ⟨h.resolvesTo, h.cache, ?_, ?_, ?_, ?_, ?_, ?_⟩
      · intro j hj
        by_cases hji : j = i
        · subst hji; simp at hj
        · simp only [Function.update_noteq hji] at hj; exact h.atResolve j hj
      · intro j _; exact hv
      · intro j w hj
        by_cases hji : j = i
        · subst hji; simp at hj
        · simp only [Function.update_noteq hji] at hj; exact h.returned j w hj
      · intro j k hj hk
        by_cases hji : j = i
        · by_cases hki : k = i
          · rw [hji, hki]
          · simp [Function.update_noteq hki, hexcl k hki] at hk
        · simp [Function.update_noteq hji, hexcl j hji] at hj
      · intro hfalse
        rw [hlocked] at hfalse; simp at hfalse
      · intro _
        exact ⟨i, by simp [ErrPc.holdsLock]⟩
  | resolve =>
    simp only [resolve_fields]
    have hhold : (s.pcs i).holdsLock = true := by rw [hpc]; rfl
    have hlocked : s.locked = true := by
      cases hl : s.locked with
      | true => rfl
      | false => rw [h.free hl i] at hhold; simp at hhold
    have hexcl : ∀ j, j ≠ i → (s.pcs j).holdsLock = false := by
      intro j hji
      cases hj : (s.pcs j).holdsLock with
      | false => rfl
      | true => exact absurd (h.excl j i hj hhold) hji
    have hunset : s.ctx.err = none := h.atResolve i hpc
    have hsrc : (s.ctx.child.Err <|> s.ctx.parent.Err) = v := h.resolvesTo hunset
    refine ⟨fun _ => hsrc, Or.inr hsrc, ?_, ?_, ?_, ?_, ?_, ?_⟩
    · intro j hj
      by_cases hji : j = i
      · subst hji; simp at hj
      · simp only [Function.update_noteq hji] at hj
        have := hexcl j hji
        rw [hj] at this; simp [ErrPc.holdsLock] at this
    · intro j _; exact hsrc
    · intro j w hj
      by_cases hji : j = i
      · subst hji; simp at hj
      · simp only [Function.update_noteq hji] at hj
        exact ⟨(h.returned j w hj).1, hsrc⟩
    · intro j k hj hk
      by_cases hji : j = i
      · by_cases hki : k = i
        · rw [hji, hki]
        · simp [Function.update_noteq hki, hexcl k hki] at hk
      · simp [Function.update_noteq hji, hexcl j hji] at hj
    · intro hfalse
      rw [hlocked] at hfalse; simp at hfalse
    · intro _
      exact ⟨i, by simp [ErrPc.holdsLock]⟩
  | ret =>
    simp only
    have hhold : (s.pcs i).holdsLock = true := by rw [hpc]; rfl
    have hexcl : ∀ j, j ≠ i → (s.pcs j).holdsLock = false := by
      intro j hji
      cases hj : (s.pcs j).holdsLock with
      | false => rfl
      | true => exact absurd (h.excl j i hj hhold) hji
    have hv : s.ctx.err = v := h.atRet i hpc
    refine ⟨h.resolvesTo, h.cache, ?_, ?_, ?_, ?_, ?_, ?_⟩
    · intro j hj
      by_cases hji : j = i
      · subst hji; simp at hj
      · simp only [Function.update_noteq hji] at hj; exact h.atResolve j hj
    · intro j hj
      by_cases hji : j = i
      · subst hji; simp at hj
      · simp only [Function.update_noteq hji] at hj; exact h.atRet j hj
    · intro j w hj
      by_cases hji : j = i
      · subst hji
        simp only [Function.update_same, ErrPc.returned.injEq] at hj
        exact ⟨by rw [← hj, hv], hv⟩
      · simp only [Function.update_noteq hji] at hj; exact h.returned j w hj
    · intro j k hj hk
      by_cases hji : j = i
      · subst hji; simp [ErrPc.holdsLock] at hj
      · simp [Function.update_noteq hji, hexcl j hji] at hj
    · intro _ j
      by_cases hji : j = i
      · subst hji; simp [ErrPc.holdsLock]
      · simp only [Function.update_noteq hji]; exact hexcl j hji
    · intro hfalse
      simp at hfalse
  | returned w =>
    simpa using h

/-- Every schedule keeps the invariant. -/
theorem errRace_inv (v : Option Error) (sched : List Nat) :
    ∀ s, ErrRaceInv v s → ErrRaceInv v (errRace s sched) := by
  induction sched with
  | nil => intro s h; exact h
  | cons i rest ih => intro s h; exact ih _ (errStep_inv v s i h)

/-- Moving one caller, with the context and the list of resolvers left as
they are, keeps the invariant on the executions of the body, provided the
caller is past the body afterwards if it is a resolver, and is a resolver if
it is past the body afterwards in a race where every caller resolves. -/
theorem ErrCountInv_move (c0 v : Option Error) (s : ErrRace) (i : Nat) (q : ErrPc)
    (l : Bool) (h : ErrCountInv c0 v s)
    (hin : i ∈ s.resolvers → q.pastBody = true)
    (hout : c0 = none → v = none → q.pastBody = true → i ∈ s.resolvers) :
    ErrCountInv c0 v { s with locked := l, pcs := Function.update s.pcs i q } := by
  refine ⟨?_, h.nodup, h.kept, h.cached, h.once, ?_⟩
  · intro k hk
    by_cases hki : k = i
    · subst hki
      simp only [Function.update_same]
      exact hin hk
    · simp only [Function.update_noteq hki]
      exact h.passed k hk
  · intro h0 hv k hk
    by_cases hki : k = i
    · subst hki
      simp only [Function.update_same] at hk
      exact hout h0 hv hk
    · simp only [Function.update_noteq hki] at hk
      exact h.each h0 hv k hk

/-- Every statement of every caller keeps the invariant on the executions of
the body. -/
theorem errStep_count (c0 v : Option Error) (s : ErrRace) (i : Nat) (hi : ErrRaceInv v s)
    (h : ErrCountInv c0 v s) : ErrCountInv c0 v (errStep s i) := by
  have hnotin : (s.pcs i).pastBody = false → i ∉ s.resolvers := by
    intro hp hmem
    rw [h.passed i hmem] at hp
    simp at hp
  unfold errStep
  cases hpc : s.pcs i with
  | start =>
    simp only
    cases hl : s.locked with
    | true => simpa using h
    | false =>
      simp only [Bool.false_eq_true, if_false]
      refine ErrCountInv_move c0 v s i .check true h ?_ ?_
      · intro hmem
        exact absurd hmem (hnotin (by rw [hpc]; rfl))
      · intro _ _ hp
        simp [ErrPc.pastBody] at hp
  | check =>
    simp only
    by_cases hcache : s.ctx.err = none
    · simp only [hcache, if_true]
      refine ErrCountInv_move c0 v s i .resolve s.locked h ?_ ?_
      · intro hmem
        exact absurd hmem (hnotin (by rw [hpc]; rfl))
      · intro _ _ hp
        simp [ErrPc.pastBody] at hp
    · simp only [hcache, if_false]
      refine ErrCountInv_move c0 v s i .ret s.locked h (fun _ => rfl) ?_
      intro _ hv _
      rcases hi.cache with hc | hc
      · exact absurd hc hcache
      · rw [hv] at hc
        exact absurd hc hcache
  | resolve =>
    simp only [resolve_fields]
    have hunset : s.ctx.err = none := hi.atResolve i hpc
    have hsrc : (s.ctx.child.Err <|> s.ctx.parent.Err) = v := hi.resolvesTo hunset
    have hc0 : c0 = none := by
      by_contra hne
      have := h.kept hne
      rw [hunset] at this
      exact hne this.symm
    have hfresh : i ∉ s.resolvers := hnotin (by rw [hpc]; rfl)
    refine ⟨?_, ?_, ?_, ?_, ?_, ?_⟩
    · intro k hk
      by_cases hki : k = i
      · subst hki
        simp [ErrPc.pastBody]
      · simp only [Function.update_noteq hki]
        have hk1 : k ∈ s.resolvers := by
          simpa [hki] using hk
        exact h.passed k hk1
    · exact List.nodup_cons.mpr ⟨hfresh, h.nodup⟩
    · intro hne
      exact absurd hc0 hne
    · intro hne
      exact absurd hc0 hne
    · intro _ hv
      have h0 := h.once hc0 hv
      simp only [hunset, if_true] at h0
      have hsome : (s.ctx.child.Err <|> s.ctx.parent.Err) ≠ none := by
        rw [hsrc]; exact hv
      simp [h0, hsome]
    · intro h0 hv k hk
      by_cases hki : k = i
      · subst hki
        exact List.mem_cons_self _ _
      · simp only [Function.update_noteq hki] at hk
        exact List.mem_cons_of_mem _ (h.each h0 hv k hk)
  | ret =>
    simp only
    refine ErrCountInv_move c0 v s i (.returned s.ctx.err) false h (fun _ => rfl) ?_
    intro h0 hv _
    exact h.each h0 hv i (by rw [hpc]; rfl)
  | returned w =>
    simpa using h

/-- Every schedule keeps the invariant on the executions of the body. -/
theorem errRace_count (c0 v : Option Error) (sched : List Nat) :
    ∀ s, ErrRaceInv v s → ErrCountInv c0 v s → ErrCountInv c0 v (errRace s sched) := by
  induction sched with
  | nil => intro s _ h; exact h
  | cons i rest ih =>
    intro s hi h
    exact ih _ (errStep_inv v s i hi) (errStep_count c0 v s i hi h)

/-- A schedule in two parts runs the first part and then the second. -/
theorem errRace_append (a b : List Nat) :
    ∀ s, errRace s (a ++ b) = errRace (errRace s a) b := by
  induction a with
  | nil => intro s; rfl
  | cons i rest ih => intro s; exact ih (errStep s i)

/-- A call of `Err()` that starts with the mutex free and runs its statements
without another caller in between does what `mergeContext.Err` does. -/
theorem errRace_alone (s : ErrRace) (i : Nat) (hfree : s.locked = false)
    (hpc : s.pcs i = .start) :
    (errRace s [i, i, i, i]).ctx = s.ctx.Err.2 ∧
    (errRace s [i, i, i, i]).pcs i = .returned s.ctx.Err.1 ∧
    (errRace s [i, i, i, i]).locked = false := by
  cases hc : s.ctx.err with
  | none =>
    simp [errRace, errStep, hpc, hfree, hc, resolve_fields, Err_of_unset]
  | some e =>
    simp [errRace, errStep, hpc, hfree, hc, Err_of_cached _ e hc]

/-- The caller that holds the lock returns within three statements of its
own, which frees the mutex and moves no other caller. -/
theorem errRace_holder (s : ErrRace) (j : Nat) (hj : (s.pcs j).holdsLock = true) :
    (errRace s [j, j, j]).locked = false ∧
    (∃ w, (errRace s [j, j, j]).pcs j = .returned w) ∧
    (∀ k, k ≠ j → (errRace s [j, j, j]).pcs k = s.pcs k) := by
  cases hpc : s.pcs j with
  | start => rw [hpc] at hj; simp [ErrPc.holdsLock] at hj
  | returned w => rw [hpc] at hj; simp [ErrPc.holdsLock] at hj
  | check =>
    by_cases hc : s.ctx.err = none
    · refine ⟨?_, ?_, ?_⟩
      · simp [errRace, errStep, hpc, hc]
      · simp [errRace, errStep, hpc, hc]
      · intro k hk
        simp [errRace, errStep, hpc, hc, Function.update_noteq hk]
    · refine ⟨?_, ?_, ?_⟩
      · simp [errRace, errStep, hpc, hc]
      · simp [errRace, errStep, hpc, hc]
      · intro k hk
        simp [errRace, errStep, hpc, hc, Function.update_noteq hk]
  | resolve =>
    refine ⟨?_, ?_, ?_⟩
    · simp [errRace, errStep, hpc]
    · simp [errRace, errStep, hpc]
    · intro k hk
      simp [errRace, errStep, hpc, Function.update_noteq hk]
  | ret =>
    refine ⟨?_, ?_, ?_⟩
    · simp [errRace, errStep, hpc]
    · simp [errRace, errStep, hpc]
    · intro k hk
      simp [errRace, errStep, hpc, Function.update_noteq hk]

/-- No caller is stuck: from every state of a race, every caller has returned
after at most seven more statements, those of the lock holder first and then
its own. -/
theorem errRace_returns (v : Option Error) (s : ErrRace) (h : ErrRaceInv v s) (i : Nat) :
    ∃ more : List Nat, more.length ≤ 7 ∧ ∃ w, (errRace s more).pcs i = .returned w := by
  cases hpc : s.pcs i with
  | returned w => exact ⟨[], by simp, w, hpc⟩
  | check =>
    exact ⟨[i, i, i], by simp, (errRace_holder s i (by rw [hpc]; rfl)).2.1⟩
  | resolve =>
    exact ⟨[i, i, i], by simp, (errRace_holder s i (by rw [hpc]; rfl)).2.1⟩
  | ret =>
    exact ⟨[i, i, i], by simp, (errRace_holder s i (by rw [hpc]; rfl)).2.1⟩
  | start =>
    cases hl : s.locked with
    | false =>
      exact ⟨[i, i, i, i], by simp, _, (errRace_alone s i hl hpc).2.1⟩
    | true =>
      obtain ⟨j, hj⟩ := h.held hl
      have hij : i ≠ j := by
        intro hij
        rw [← hij, hpc] at hj
        simp [ErrPc.holdsLock] at hj
      obtain ⟨hfree, _, hothers⟩ := errRace_holder s j hj
      have hstart : (errRace s [j, j, j]).pcs i = .start := by
        rw [hothers i hij, hpc]
      refine ⟨[j, j, j] ++ [i, i, i, i], by simp, (errRace s [j, j, j]).ctx.Err.1, ?_⟩
      rw [errRace_append]
      exact (errRace_alone _ i hfree hstart).2.1

/-- C14, counterexample: two callers of `Err()` on the context of
`Merge(Background, Background)`, whose sources are live, the second arriving
at `Lock` while the first holds it: both return nil, and the body of
`if ctx.err == nil` has been executed twice, not once. -/
theorem err_race_counterexample :
    ∃ r0, Merge (some Background) (some Background) = .ok (.merge r0) ∧
      (errRace (ErrRace.start r0.ctx) [0, 1, 0, 1, 0, 1, 0, 1, 1, 1, 1]).pcs 0
        = .returned none ∧
      (errRace (ErrRace.start r0.ctx) [0, 1, 0, 1, 0, 1, 0, 1, 1, 1, 1]).pcs 1
        = .returned none ∧
      (errRace (ErrRace.start r0.ctx) [0, 1, 0, 1, 0, 1, 0, 1, 1, 1, 1]).resolutions = 2 :=
  ⟨_, rfl, rfl, rfl, rfl⟩

/-- C14, amended: on every merged context, with sources that do not change
during the calls, and under every interleaving of the statements of any
number of callers of `Err()`: at most one caller at a time is between `Lock`
and `Unlock`, and the mutex is locked exactly while one is; every caller
returns within seven more statements, with what a lone call returns; every
caller that has returned has that same value, and the cache holds either what
it held at the start or that value. The body of `if ctx.err == nil` is never
executed when the cache was set at the start; it is executed at most once,
and exactly once as soon as a caller has returned, when the cache was unset
and a source reports an error; and when the cache was unset and no source
reports an error nothing is cached, and the callers that executed the body,
each once, are exactly those past it. -/
theorem err_race_safe (ctx : mergeContext) (sched : List Nat) (s : ErrRace)
    (hs : errRace (ErrRace.start ctx) sched = s) :
    (∀ i j, (s.pcs i).holdsLock = true → (s.pcs j).holdsLock = true → i = j) ∧
    (s.locked = true ↔ ∃ i, (s.pcs i).holdsLock = true) ∧
    (∀ i, ∃ more : List Nat, more.length ≤ 7 ∧
      (errRace s more).pcs i = .returned ctx.Err.1) ∧
    (∀ i w, s.pcs i = .returned w → w = ctx.Err.1 ∧ s.ctx.err = ctx.Err.1) ∧
    (s.ctx.err = ctx.err ∨ s.ctx.err = ctx.Err.1) ∧
    (ctx.err ≠ none → s.resolutions = 0) ∧
    (ctx.err = none → ctx.Err.1 ≠ none →
      s.resolutions ≤ 1 ∧ ((∃ i w, s.pcs i = .returned w) → s.resolutions = 1)) ∧
    (ctx.err = none → ctx.Err.1 = none →
      s.ctx.err = none ∧ s.resolvers.Nodup ∧
      ∀ i, (s.pcs i).pastBody = true ↔ i ∈ s.resolvers) := by
  subst hs
  have hinv : ErrRaceInv ctx.Err.1 (errRace (ErrRace.start ctx) sched) :=
    errRace_inv _ sched _ (ErrRaceInv_start ctx)
  have hcnt : ErrCountInv ctx.err ctx.Err.1 (errRace (ErrRace.start ctx) sched) :=
    errRace_count _ _ sched _ (ErrRaceInv_start ctx) (ErrCountInv_start ctx)
  refine ⟨hinv.excl, ?_, ?_, hinv.returned, ?_, ?_, ?_, ?_⟩
  · constructor
    · exact hinv.held
    · rintro ⟨i, hi⟩
      cases hl : (errRace (ErrRace.start ctx) sched).locked with
      | true => rfl
      | false => rw [hinv.free hl i] at hi; simp at hi
  · intro i
    obtain ⟨more, hlen, w, hw⟩ := errRace_returns _ _ hinv i
    refine ⟨more, hlen, ?_⟩
    rw [hw, ((errRace_inv _ more _ hinv).returned i w hw).1]
  · cases hc : ctx.err with
    | none =>
      rcases hinv.cache with h | h
      · exact Or.inl h
      · exact Or.inr h
    | some e =>
      exact Or.inl (by rw [hcnt.kept (by simp [hc]), hc])
  · intro hne
    simp [ErrRace.resolutions, hcnt.cached hne]
  · intro h0 hv
    have honce := hcnt.once h0 hv
    simp only [ErrRace.resolutions]
    refine ⟨?_, ?_⟩
    · rw [honce]
      split <;> omega
    · rintro ⟨i, w, hi⟩
      have hcache := (hinv.returned i w hi).2
      rw [honce]
      have hne : (errRace (ErrRace.start ctx) sched).ctx.err ≠ none := by
        rw [hcache]; exact hv
      simp [hne]
  · intro h0 hv
    refine ⟨?_, hcnt.nodup, ?_⟩
    · rcases hinv.cache with h | h
      · exact h
      · rw [h, hv]
    · intro i
      exact ⟨hcnt.each h0 hv i, hcnt.passed i⟩

/-- C14 amended, on the context of `Merge(Background, Background)` with two
callers, the second arriving at `Lock` while the first holds it: once the
parent is done and the watcher ran, both return the parent's cause after one
execution of the body; with both sources live, both return nil and both have
executed the body. -/
theorem err_race_safe_witness :
    (∃ r0 r, Merge (some Background) (some Background) = .ok (.merge r0) ∧
      run r0 [.parentDone "parent-cancelled", .watcher] = .ok r ∧
      (errRace (ErrRace.start r.ctx) [0, 1, 0, 1, 0, 1, 0, 1, 1, 1]).pcs 0
        = .returned (some "parent-cancelled") ∧
      (errRace (ErrRace.start r.ctx) [0, 1, 0, 1, 0, 1, 0, 1, 1, 1]).pcs 1
        = .returned (some "parent-cancelled") ∧
      (errRace (ErrRace.start r.ctx) [0, 1, 0, 1, 0, 1, 0, 1, 1, 1]).locked = false ∧
      (errRace (ErrRace.start r.ctx) [0, 1, 0, 1, 0, 1, 0, 1, 1, 1]).resolutions = 1) ∧
    (∃ r0, Merge (some Background) (some Background) = .ok (.merge r0) ∧
      (errRace (ErrRace.start r0.ctx) [0, 1, 0, 1, 0, 1, 0, 1, 1, 1, 1]).pcs 1
        = .returned none ∧
      (errRace (ErrRace.start r0.ctx) [0, 1, 0, 1, 0, 1, 0, 1, 1, 1, 1]).ctx.err = none ∧
      1 ∈ (errRace (ErrRace.start r0.ctx) [0, 1, 0, 1, 0, 1, 0, 1, 1, 1, 1]).resolvers ∧
      0 ∈ (errRace (ErrRace.start r0.ctx) [0, 1, 0, 1, 0, 1, 0, 1, 1, 1, 1]).resolvers) :=
  ⟨⟨_, _, rfl, rfl, rfl, rfl, rfl,
      ((err_race_safe
        (mergeContext.mk Background (Background.finish "parent-cancelled") ⟨true⟩ none)
        [0, 1, 0, 1, 0, 1, 0, 1, 1, 1] _ rfl).2.2.2.2.2.2.1 rfl (by decide)).2
        ⟨0, _, rfl⟩⟩,
   ⟨_, rfl, rfl,
      ((err_race_safe (mergeContext.mk Background Background make none)
        [0, 1, 0, 1, 0, 1, 0, 1, 1, 1, 1] _ rfl).2.2.2.2.2.2.2 rfl rfl).1,
      (((err_race_safe (mergeContext.mk Background Background make none)
        [0, 1, 0, 1, 0, 1, 0, 1, 1, 1, 1] _ rfl).2.2.2.2.2.2.2 rfl rfl).2.2 1).mp rfl,
      (((err_race_safe (mergeContext.mk Background Background make none)
        [0, 1, 0, 1, 0, 1, 0, 1, 1, 1, 1] _ rfl).2.2.2.2.2.2.2 rfl rfl).2.2 0).mp rfl⟩⟩

end Contexts
